import Mathlib

/-!
# Verification of the LudicrousTrie / TurboTrie storage engine

Shallow embedding of the versioned path-addressed Merkle-Patricia trie
("LudicrousTrie") and its satellite components (nibble/compact encodings,
storage-key codec, vector database / fridge, finalizer), translated from the
Go sources, together with proofs of the specification claims.

Bytes and nibbles are modelled as `Nat` with explicit `% 256` where the Go
code performs byte-overflowing arithmetic.
-/

namespace LT

/-- Byte strings (each element is a byte value `< 256`; nibble strings use
values `< 16` plus the terminator `16`). -/
abbrev Bytes := List Nat

/-! ## Nibble/key encodings (`internal/encoding`) -/

/-- `Keybytes.Hex`: expand each byte into two nibbles and append the
terminator nibble `16`. -/
def keybytesHex (kb : Bytes) : Bytes :=
  (kb.map fun b => [b / 16, b % 16]).flatten ++ [16]

/-- `decodeNibbles`: pack consecutive nibble pairs into bytes
(`nibbles[ni]<<4 | nibbles[ni+1]`, byte-truncated). The Go code is only
called on even-length inputs; a trailing lone nibble is dropped here (Go
would panic with an index error). -/
def decodeNibblesFn : Bytes → Bytes
  | n1 :: n2 :: rest => ((n1 <<< 4) ||| n2) % 256 :: decodeNibblesFn rest
  | _ => []

/-- `Hex.HasTerm`: whether a hex key carries the terminator flag. -/
def hexHasTerm (h : Bytes) : Bool :=
  decide (h ≠ []) && (h.getLast? == some 16)

/-- `Hex.Keybytes`: drop the terminator and pack nibbles into bytes.
Go panics on an odd number of remaining nibbles; modelled as `[]` (all
call sites proved to avoid it). -/
def hexKeybytes (h : Bytes) : Bytes :=
  let hex := if hexHasTerm h then h.dropLast else h
  if hex.length % 2 ≠ 0 then []
  else decodeNibblesFn hex

/-- `Hex.Compact`: the classical compact ("hex prefix") encoding.  The high
nibble of the first byte holds `(is_leaf <<1) | is_odd`; when odd the low
nibble of the first byte is the first data nibble. -/
def hexCompact (h : Bytes) : Bytes :=
  let terminator : Nat := if hexHasTerm h then 1 else 0
  let hex := if hexHasTerm h then h.dropLast else h
  if hex.length % 2 == 1 then
    (((terminator <<< 5) ||| (1 <<< 4) ||| hex.headD 0) % 256) :: decodeNibblesFn hex.tail
  else
    ((terminator <<< 5) % 256) :: decodeNibblesFn hex

/-- `Compact.IsLeaf`: bit 5 of the first byte. -/
def compactIsLeaf (c : Bytes) : Bool :=
  (c.headD 0) &&& (1 <<< 5) > 0

/-- `Compact.Hex`: re-expand a compact key to hex form, deleting the
terminator when the leaf flag is absent and chopping the flag nibble(s). -/
def compactHex (c : Bytes) : Bytes :=
  let base := keybytesHex c
  let base := if base.headD 0 < 2 then base.dropLast else base
  let chop := 2 - ((base.headD 0) &&& 1)
  base.drop chop

/-- `Hex.PrefixLen`: length of the common prefix of two nibble strings. -/
def prefixLenFn : Bytes → Bytes → Nat
  | a :: as, b :: bs => if a = b then prefixLenFn as bs + 1 else 0
  | _, _ => 0

/-- `Hex.Join`. -/
def hexJoin (h suffix : Bytes) : Bytes := h ++ suffix

/-! ## Storage-key codec (`turbotrie/internal/storage/key.go`) -/

/-- `binary.BigEndian.PutUint32`: 4-byte big-endian encoding. -/
def be32 (v : Nat) : Bytes :=
  [v / 2 ^ 24 % 256, v / 2 ^ 16 % 256, v / 2 ^ 8 % 256, v % 256]

/-- `storage.NewKey`: pack the nibble path (padding a trailing `0` nibble
when its length is odd and not 65), then append a one-byte odd-length flag
and the 4-byte big-endian version. -/
def NewKey (path : Bytes) (version : Nat) : Bytes :=
  let oddLenKey := path.length ≠ 65 ∧ path.length % 2 = 1
  let p := if oddLenKey then path ++ [0] else path
  let flag : Nat := if oddLenKey then 1 else 0
  hexKeybytes p ++ (flag :: be32 version)

/-- Strict lexicographic byte order (`bytes.Compare a b < 0`): a proper
prefix sorts before its extensions. -/
def bytesLt : Bytes → Bytes → Bool
  | [], [] => false
  | [], _ :: _ => true
  | _ :: _, [] => false
  | a :: as, b :: bs => if a < b then true else if b < a then false else bytesLt as bs

/-- A terminator-free nibble path as used for branch positions. -/
def PrefixPathOK (p : Bytes) : Prop :=
  (∀ x ∈ p, x < 16) ∧ p.length ≤ 64

/-- A path acceptable to `NewKey` without panicking: either a
terminator-free prefix path or a full 65-nibble value path. -/
def KeyPathOK (p : Bytes) : Prop :=
  PrefixPathOK p ∨
    (p.length = 65 ∧ (∀ x ∈ p.dropLast, x < 16) ∧ p.getLast? = some 16)

/-- Nibble-pair packing of two nibbles is positional base-16 arithmetic. -/
theorem pack16_eq (a b : Nat) (ha : a < 16) (hb : b < 16) :
    ((a <<< 4) ||| b) % 256 = 16 * a + b := by
  interval_cases a <;> interval_cases b <;> decide

/-- Unpacking recovers both nibbles of a packed pair. -/
theorem unpack16 (a b : Nat) (ha : a < 16) (hb : b < 16) :
    ((a <<< 4) ||| b) % 256 / 16 = a ∧ ((a <<< 4) ||| b) % 256 % 16 = b := by
  rw [pack16_eq a b ha hb]
  omega

/-- A hex string is well-formed when all nibbles are `< 16` except an
optional trailing terminator `16`. -/
def HexOK (h : Bytes) : Prop :=
  (∀ x ∈ h.dropLast, x < 16) ∧ (∀ x, h.getLast? = some x → x ≤ 16)

/-- Expanding the packing of an even-length nibble string gives back the
nibbles (plus the fresh terminator appended by `keybytesHex`). -/
theorem keybytesHex_decodeNibbles : (ns : Bytes) → ns.length % 2 = 0 →
    (∀ x ∈ ns, x < 16) →
    keybytesHex (decodeNibblesFn ns) = ns ++ [16]
  | [], _, _ => by simp [decodeNibblesFn, keybytesHex]
  | [n], heven, _ => by simp at heven
  | n1 :: n2 :: rest, heven, hn => by
    have h1 : n1 < 16 := hn n1 (by simp)
    have h2 : n2 < 16 := hn n2 (by simp)
    have hrest : ∀ x ∈ rest, x < 16 := fun x hx => hn x (by simp [hx])
    have hre : rest.length % 2 = 0 := by
      simp [List.length_cons] at heven; omega
    have ih := keybytesHex_decodeNibbles rest hre hrest
    simp only [decodeNibblesFn, keybytesHex, List.map_cons, List.flatten] at ih ⊢
    rw [(unpack16 n1 n2 h1 h2).1, (unpack16 n1 n2 h1 h2).2]
    simp only [List.cons_append, List.append_assoc] at ih ⊢
    simp [ih]

/-- Expanding the bytes produced by `decodeNibblesFn` recovers the nibbles. -/
theorem expand_pack : (ns : Bytes) → ns.length % 2 = 0 → (∀ x ∈ ns, x < 16) →
    ((decodeNibblesFn ns).map fun b => [b / 16, b % 16]).flatten = ns
  | [], _, _ => by simp [decodeNibblesFn]
  | [n], heven, _ => by simp at heven
  | n1 :: n2 :: rest, heven, hn => by
    have h1 : n1 < 16 := hn n1 (by simp)
    have h2 : n2 < 16 := hn n2 (by simp)
    have hrest : ∀ x ∈ rest, x < 16 := fun x hx => hn x (by simp [hx])
    have hre : rest.length % 2 = 0 := by
      simp [List.length_cons] at heven; omega
    have ih := expand_pack rest hre hrest
    simp only [decodeNibblesFn, List.map_cons, List.flatten]
    rw [(unpack16 n1 n2 h1 h2).1, (unpack16 n1 n2 h1 h2).2]
    simp [ih]

theorem oddflag0 (x : Nat) (hx : x < 16) :
    (((0:Nat) <<< 5) ||| (1 <<< 4) ||| x) % 256 = 16 + x := by
  interval_cases x <;> decide

theorem oddflag1 (x : Nat) (hx : x < 16) :
    (((1:Nat) <<< 5) ||| (1 <<< 4) ||| x) % 256 = 48 + x := by
  interval_cases x <;> decide

/-- `keybytesHex` of a cons expands the head byte then the rest. -/
theorem keybytesHex_cons (b : Nat) (bs : Bytes) :
    keybytesHex (b :: bs) = b / 16 :: b % 16 :: ((bs.map fun b => [b / 16, b % 16]).flatten ++ [16]) := by
  simp [keybytesHex]

/-- If the terminator flag is absent, every nibble of a well-formed hex
string is `< 16`. -/
theorem hexOK_no_term (h : Bytes) (hok : HexOK h) (hterm : hexHasTerm h = false) :
    ∀ x ∈ h, x < 16 := by
  intro x hx
  rcases List.eq_nil_or_concat h with rfl | ⟨l, a, rfl⟩
  · simp at hx
  · rw [List.concat_eq_append] at hok hx hterm
    have hlast : (l ++ [a]).getLast? = some a := by
      simp [List.getLast?_append]
    have ha : a ≤ 16 := hok.2 a hlast
    have hane : a ≠ 16 := by
      intro he
      simp [hexHasTerm, hlast] at hterm
      exact hterm he
    rcases List.mem_append.mp hx with hxl | hxa
    · exact hok.1 x (by simp [hxl])
    · simp at hxa; omega

/-- If the terminator flag is present, the string splits as
`dropLast ++ [16]` with all earlier nibbles `< 16`. -/
theorem hexOK_term (h : Bytes) (hok : HexOK h) (hterm : hexHasTerm h = true) :
    h = h.dropLast ++ [16] ∧ ∀ x ∈ h.dropLast, x < 16 := by
  rcases List.eq_nil_or_concat h with rfl | ⟨l, a, rfl⟩
  · simp [hexHasTerm] at hterm
  · rw [List.concat_eq_append] at hok hterm ⊢
    have hlast : (l ++ [a]).getLast? = some a := by
      simp [List.getLast?_append]
    have ha : a = 16 := by
      simp [hexHasTerm, hlast] at hterm
      omega
    subst ha
    refine ⟨by simp, fun x hx => hok.1 x hx⟩

/-- **C10 core**: converting a well-formed hex nibble string to compact
encoding and back is the identity. -/
theorem dropLast_app_term (l : Bytes) (a b c : Nat) :
    (a :: b :: (l ++ [c])).dropLast = a :: b :: l := by
  rw [show (a :: b :: (l ++ [c])) = (a :: b :: l) ++ [c] by simp,
    List.dropLast_concat]

theorem compactHex_hexCompact (h : Bytes) (hok : HexOK h) :
    compactHex (hexCompact h) = h := by
  by_cases hterm : hexHasTerm h = true
  · obtain ⟨hsplit, hlt⟩ := hexOK_term h hok hterm
    by_cases hodd : h.dropLast.length % 2 = 1
    · obtain ⟨x, t, hxt⟩ := List.exists_cons_of_ne_nil
        (l := h.dropLast) (by intro hnil; rw [hnil] at hodd; simp at hodd)
      have hx : x < 16 := hlt x (by rw [hxt]; simp)
      have ht : ∀ y ∈ t, y < 16 := fun y hy => hlt y (by rw [hxt]; simp [hy])
      have hte : t.length % 2 = 0 := by rw [hxt] at hodd; simp at hodd; omega
      have hcond : (h.dropLast.length % 2 == 1) = true := by simpa using hodd
      have h1 : hexCompact h = (48 + x) :: decodeNibblesFn t := by
        simp only [hexCompact, hterm, if_true, hcond]
        rw [hxt]
        simp only [List.headD_cons, List.tail_cons]
        rw [oddflag1 x hx]
      rw [h1]
      simp only [compactHex, keybytesHex_cons, expand_pack t hte ht]
      rw [show (48 + x) / 16 = 3 by omega, show (48 + x) % 16 = x by omega]
      simp only [List.headD_cons]
      rw [if_neg (by omega : ¬ (3:Nat) < 2)]
      simp only [List.headD_cons]
      rw [show ((3:Nat) &&& 1) = 1 from by decide]
      rw [hsplit, hxt]
      simp
    · have hcond : (h.dropLast.length % 2 == 1) = false := by simpa using hodd
      have h1 : hexCompact h = 32 :: decodeNibblesFn h.dropLast := by
        simp only [hexCompact, hterm, if_true, hcond]
        rw [if_neg (by simp), show ((1:Nat) <<< 5) % 256 = 32 from by decide]
      have hde : h.dropLast.length % 2 = 0 := by omega
      rw [h1]
      simp only [compactHex, keybytesHex_cons, expand_pack h.dropLast hde hlt]
      rw [show (32:Nat) / 16 = 2 by omega, show (32:Nat) % 16 = 0 by omega]
      simp only [List.headD_cons]
      rw [if_neg (by omega : ¬ (2:Nat) < 2)]
      simp only [List.headD_cons]
      rw [show ((2:Nat) &&& 1) = 0 from by decide]
      rw [hsplit]
      simp
  · have hterm' : hexHasTerm h = false := by
      revert hterm; cases hexHasTerm h <;> simp
    have hall := hexOK_no_term h hok hterm'
    by_cases hodd : h.length % 2 = 1
    · obtain ⟨x, t, hxt⟩ := List.exists_cons_of_ne_nil
        (l := h) (by intro hnil; rw [hnil] at hodd; simp at hodd)
      subst hxt
      have hx : x < 16 := hall x (by simp)
      have ht : ∀ y ∈ t, y < 16 := fun y hy => hall y (by simp [hy])
      have hte : t.length % 2 = 0 := by simp at hodd; omega
      have hcond : ((x :: t).length % 2 == 1) = true := by simpa using hodd
      have h1 : hexCompact (x :: t) = (16 + x) :: decodeNibblesFn t := by
        simp only [hexCompact, hterm', Bool.false_eq_true, if_false, hcond]
        rw [if_pos trivial]
        simp only [List.headD_cons, List.tail_cons]
        rw [oddflag0 x hx]
      rw [h1]
      simp only [compactHex, keybytesHex_cons, expand_pack t hte ht]
      rw [show (16 + x) / 16 = 1 by omega, show (16 + x) % 16 = x by omega]
      simp only [List.headD_cons]
      rw [if_pos (by omega : (1:Nat) < 2), dropLast_app_term]
      simp only [List.headD_cons]
      rw [show ((1:Nat) &&& 1) = 1 from by decide]
      simp
    · have hcond : (h.length % 2 == 1) = false := by simpa using hodd
      have h1 : hexCompact h = 0 :: decodeNibblesFn h := by
        simp only [hexCompact, hterm', Bool.false_eq_true, if_false, hcond]
        rw [show ((0:Nat) <<< 5) % 256 = 0 from by decide]
      have hde : h.length % 2 = 0 := by omega
      rw [h1]
      simp only [compactHex, keybytesHex_cons, expand_pack h hde hall]
      rw [show (0:Nat) / 16 = 0 by omega, show (0:Nat) % 16 = 0 by omega]
      simp only [List.headD_cons]
      rw [if_pos (by omega : (0:Nat) < 2), dropLast_app_term]
      simp only [List.headD_cons]
      rw [show ((0:Nat) &&& 1) = 0 from by decide]
      simp

/-! ### Storage-key ordering lemmas (C3) -/

theorem bytesLt_append_same : (xs a b : Bytes) →
    bytesLt (xs ++ a) (xs ++ b) = bytesLt a b
  | [], _, _ => rfl
  | x :: xs, a, b => by
    simp only [List.cons_append, bytesLt, lt_irrefl, if_false]
    exact bytesLt_append_same xs a b

theorem bytesLt_cons_lt {a b : Nat} (h : a < b) (r1 r2 : Bytes) :
    bytesLt (a :: r1) (b :: r2) = true := by
  simp only [bytesLt, if_pos h]

theorem bytesLt_append_lt {a b : Nat} (h : a < b) (xs r1 r2 : Bytes) :
    bytesLt (xs ++ a :: r1) (xs ++ b :: r2) = true := by
  rw [bytesLt_append_same]
  exact bytesLt_cons_lt h r1 r2

theorem be32_lt {v1 v2 : Nat} (h : v1 < v2) (h2 : v2 < 2 ^ 32) :
    bytesLt (be32 v1) (be32 v2) = true := by
  simp only [be32, bytesLt]
  split_ifs <;> first | rfl | omega

theorem decodeNibblesFn_append_even : (xs ys : Bytes) → xs.length % 2 = 0 →
    decodeNibblesFn (xs ++ ys) = decodeNibblesFn xs ++ decodeNibblesFn ys
  | [], _, _ => rfl
  | [x], ys, h => by simp at h
  | x1 :: x2 :: xs, ys, h => by
    simp only [List.cons_append, decodeNibblesFn, List.length_cons] at h ⊢
    exact congrArg (List.cons _) (decodeNibblesFn_append_even xs ys (by omega))

theorem decodeNibblesFn_cons₂ (x y : Nat) (zs : Bytes) (hx : x < 16) (hy : y < 16) :
    decodeNibblesFn (x :: y :: zs) = (16 * x + y) :: decodeNibblesFn zs := by
  simp only [decodeNibblesFn]
  rw [pack16_eq x y hx hy]

theorem decodeNibblesFn_nil : decodeNibblesFn [] = [] := rfl

/-- A terminator-free nibble string never carries the terminator flag. -/
theorem hexHasTerm_eq_false (p : Bytes) (hlt : ∀ x ∈ p, x < 16) :
    hexHasTerm p = false := by
  rcases List.eq_nil_or_concat p with rfl | ⟨l, a, rfl⟩
  · rfl
  · rw [List.concat_eq_append] at hlt ⊢
    have hlast : (l ++ [a]).getLast? = some a := by simp [List.getLast?_append]
    have : a < 16 := hlt a (by simp)
    simp [hexHasTerm, hlast]
    omega

theorem hexKeybytes_even (p : Bytes) (hlt : ∀ x ∈ p, x < 16)
    (heven : p.length % 2 = 0) : hexKeybytes p = decodeNibblesFn p := by
  simp only [hexKeybytes, hexHasTerm_eq_false p hlt, Bool.false_eq_true,
    if_false, heven]
  simp

/-- Evaluation of `NewKey` on an even-length prefix path. -/
theorem NewKey_even (p : Bytes) (v : Nat) (hlt : ∀ x ∈ p, x < 16)
    (heven : p.length % 2 = 0) :
    NewKey p v = decodeNibblesFn p ++ 0 :: be32 v := by
  have hodd : ¬ (p.length ≠ 65 ∧ p.length % 2 = 1) := by omega
  simp only [NewKey, if_neg hodd]
  rw [hexKeybytes_even p hlt heven]

/-- Evaluation of `NewKey` on an odd-length prefix path (below 65 nibbles):
a `0` nibble is padded and the odd-flag byte is set. -/
theorem NewKey_odd (p : Bytes) (v : Nat) (hlt : ∀ x ∈ p, x < 16)
    (hlen : p.length ≠ 65) (hodd : p.length % 2 = 1) :
    NewKey p v = decodeNibblesFn (p ++ [0]) ++ 1 :: be32 v := by
  have hc : p.length ≠ 65 ∧ p.length % 2 = 1 := ⟨hlen, hodd⟩
  simp only [NewKey, if_pos hc]
  rw [hexKeybytes_even (p ++ [0])
    (by intro x hx
        rcases List.mem_append.mp hx with h | h
        · exact hlt x h
        · simp at h; omega)
    (by simp; omega)]

/-- **C3 (amended), prefix part**: for terminator-free paths `P` a strict
prefix of `P'` whose first extension nibble is nonzero, every storage key of
`P` sorts strictly before every storage key of `P'`. -/
theorem newKey_prefix_lt (P P' : Bytes) (hP : PrefixPathOK P)
    (hP' : PrefixPathOK P') (hpre : P <+: P') (hne : P ≠ P')
    (ha : P'.getD P.length 0 ≠ 0) (v v' : Nat) :
    bytesLt (NewKey P v) (NewKey P' v') = true := by
  obtain ⟨ext, hext⟩ := hpre
  have hextne : ext ≠ [] := by
    intro h; rw [h] at hext; simp at hext; exact hne hext
  obtain ⟨a, rest, rfl⟩ := List.exists_cons_of_ne_nil hextne
  have hlenP' : P'.length = P.length + (rest.length + 1) := by
    rw [← hext]; simp
  have haval : P'.getD P.length 0 = a := by
    rw [← hext]
    rw [List.getD_append_right _ _ _ _ (le_refl P.length)]
    simp
  have ha1 : 1 ≤ a := by omega
  have hPlt := hP.1
  have hP'lt := hP'.1
  have haa : a < 16 := hP'lt a (by rw [← hext]; simp)
  have hrest : ∀ x ∈ rest, x < 16 := fun x hx =>
    hP'lt x (by rw [← hext]; simp [hx])
  have hP'len : P'.length ≤ 64 := hP'.2
  by_cases hPe : P.length % 2 = 0
  · -- even-length P: the flag byte 0 of the key of P meets the first packed
    -- extension byte 16*a + _ of the key of P'.
    rw [NewKey_even P v hPlt hPe]
    by_cases hP'p : P'.length % 2 = 1
    · -- P' odd, so P' is padded; the padded extension is even and nonempty
      rw [NewKey_odd P' v' hP'lt (by omega) hP'p, ← hext]
      obtain ⟨b, tail, hbt⟩ := List.exists_cons_of_ne_nil
        (l := rest ++ [0]) (by simp)
      have hb : b < 16 := by
        have : b ∈ rest ++ [0] := by rw [hbt]; simp
        rcases List.mem_append.mp this with h | h
        · exact hrest b h
        · simp at h; omega
      rw [show P ++ a :: rest ++ [0] = P ++ (a :: (rest ++ [0])) by simp,
        decodeNibblesFn_append_even P _ hPe, hbt,
        decodeNibblesFn_cons₂ a b _ haa hb]
      simp only [List.append_assoc, List.cons_append]
      apply bytesLt_append_lt
      omega
    · -- P' even: the extension itself is even and has a second nibble
      have hP'e : P'.length % 2 = 0 := by omega
      rw [NewKey_even P' v' hP'lt hP'e, ← hext]
      obtain ⟨b, tail, hbt⟩ := List.exists_cons_of_ne_nil
        (l := rest) (by intro h; rw [h] at hlenP'; simp at hlenP'; omega)
      have hb : b < 16 := hrest b (by rw [hbt]; simp)
      rw [hbt, decodeNibblesFn_append_even P _ hPe,
        decodeNibblesFn_cons₂ a b _ haa hb]
      simp only [List.append_assoc, List.cons_append]
      apply bytesLt_append_lt
      omega
  · -- odd-length P = Q ++ [l]: the padded final byte 16*l of the key of P
    -- meets the byte 16*l + a of the key of P'.
    obtain ⟨Q, l, hQl⟩ := (List.eq_nil_or_concat P).resolve_left
      (by intro h; rw [h] at hPe; simp at hPe)
    rw [List.concat_eq_append] at hQl
    subst hQl
    have hQe : Q.length % 2 = 0 := by simp at hPe ⊢; omega
    have hl : l < 16 := hPlt l (by simp)
    have hQlt : ∀ x ∈ Q, x < 16 := fun x hx => hPlt x (by simp [hx])
    rw [NewKey_odd (Q ++ [l]) v hPlt (by have := hP.2; simp at this ⊢; omega)
      (by simp at hPe ⊢; omega)]
    rw [show Q ++ [l] ++ [0] = Q ++ (l :: [0]) by simp,
      decodeNibblesFn_append_even Q _ hQe,
      decodeNibblesFn_cons₂ l 0 [] hl (by omega), decodeNibblesFn_nil]
    by_cases hP'p : P'.length % 2 = 1
    · rw [NewKey_odd P' v' hP'lt (by omega) hP'p, ← hext]
      rw [show Q ++ [l] ++ a :: rest ++ [0] = Q ++ (l :: a :: (rest ++ [0])) by simp,
        decodeNibblesFn_append_even Q _ hQe,
        decodeNibblesFn_cons₂ l a _ hl haa]
      simp only [List.append_assoc, List.cons_append, List.nil_append]
      apply bytesLt_append_lt
      omega
    · have hP'e : P'.length % 2 = 0 := by omega
      rw [NewKey_even P' v' hP'lt hP'e, ← hext]
      rw [show Q ++ [l] ++ a :: rest = Q ++ (l :: a :: rest) by simp,
        decodeNibblesFn_append_even Q _ hQe,
        decodeNibblesFn_cons₂ l a _ hl haa]
      simp only [List.append_assoc, List.cons_append, List.nil_append]
      apply bytesLt_append_lt
      omega

/-! ## Vector database / "fridge" (`ethdb/vectordb/vectordb.go`)

The two append-only files `INDEX` and `DATA` are modelled as byte lists;
`os.File.ReadAt` fails with `io.EOF` when the requested range extends past
the end of the file, and `os.File.Truncate` shrinks or zero-extends. -/

/-- `binary.BigEndian.PutUint64`. -/
def be64 (v : Nat) : Bytes :=
  [v / 2 ^ 56 % 256, v / 2 ^ 48 % 256, v / 2 ^ 40 % 256, v / 2 ^ 32 % 256,
   v / 2 ^ 24 % 256, v / 2 ^ 16 % 256, v / 2 ^ 8 % 256, v % 256]

/-- `binary.BigEndian.Uint64` on (up to) 8 bytes. -/
def beNat (b : Bytes) : Nat :=
  b.foldl (fun acc x => acc * 256 + x) 0

/-- `indexEntry`: metadata of one stored item. -/
structure IndexEntry where
  offset : Nat
  length : Nat
deriving DecidableEq, Repr

/-- `indexEntry.marshallBinary`: 16 bytes, two big-endian `uint64`s. -/
def IndexEntry.marshall (e : IndexEntry) : Bytes :=
  be64 e.offset ++ be64 e.length

/-- `indexEntry.unmarshalBinary` on a 16-byte slice. -/
def unmarshalEntry (b : Bytes) : IndexEntry :=
  { offset := beNat (b.take 8), length := beNat ((b.drop 8).take 8) }

/-- `os.File.ReadAt`: full read or `io.EOF`. -/
def readAt (file : Bytes) (off len : Nat) : Except String Bytes :=
  if off + len ≤ file.length then .ok ((file.drop off).take len)
  else .error "EOF"

/-- `os.File.Truncate`: shrink to `size`, zero-extending when growing. -/
def truncateFile (file : Bytes) (size : Nat) : Bytes :=
  if size ≤ file.length then file.take size
  else file ++ List.replicate (size - file.length) 0

/-- The in-memory `VectorDB` handle plus the contents of its two files
(`closed` models the nil file descriptors after `Close`). -/
structure VectorDB where
  items : Nat
  index : Bytes
  data : Bytes
  closed : Bool
deriving DecidableEq, Repr

/-- `Open` on a fresh directory. -/
def VectorDB.openFresh : VectorDB :=
  { items := 0, index := [], data := [], closed := false }

def VectorDB.checkIsOpen (f : VectorDB) : Except String Unit :=
  if f.closed then .error "vector database already closed" else .ok ()

/-- `VectorDB.indexEntry`: read the 16-byte record at position `pos`. -/
def VectorDB.indexEntryAt (f : VectorDB) (pos : Nat) : Except String IndexEntry := do
  let b ← readAt f.index (pos * 16) 16
  .ok (unmarshalEntry b)

/-- `VectorDB.Get`. -/
def VectorDB.Get (f : VectorDB) (pos : Nat) : Except String Bytes := do
  let _ ← f.checkIsOpen
  if pos ≥ f.items then
    .error "position out of range"
  else do
    let entry ← f.indexEntryAt pos
    readAt f.data entry.offset entry.length

/-- `VectorDB.Append`: write the payload to `DATA`, its entry to `INDEX`,
and bump the item count. -/
def VectorDB.Append (f : VectorDB) (b : Bytes) : Except String VectorDB := do
  let _ ← f.checkIsOpen
  let offset := f.data.length
  let data := f.data ++ b
  let index := f.index ++ IndexEntry.marshall ⟨offset, b.length⟩
  .ok { f with data := data, index := index, items := f.items + 1 }

/-- `VectorDB.Items`. -/
def VectorDB.Items (f : VectorDB) : Nat := f.items

/-- `VectorDB.Truncate`: note that (as in the source) the item count is
reduced and the `INDEX` file truncated *before* the entry at position `len`
is read back, and that `truncateDataFile` truncates the *index* file. The
function returns the mutated state alongside the error, since the Go method
mutates the receiver before failing. -/
def VectorDB.Truncate (f : VectorDB) (len : Nat) : VectorDB × Option String :=
  if f.closed then (f, some "vector database already closed")
  else if len ≥ f.items then (f, some "position out of range")
  else
    let f1 : VectorDB := { f with items := len }
    let newIndexFileSize := len * 16
    let f2 : VectorDB := { f1 with index := truncateFile f1.index newIndexFileSize }
    match f2.indexEntryAt len with
    | .error e => (f2, some e)
    | .ok lastEntry =>
      let newDataFileSize := lastEntry.offset + lastEntry.length
      -- the source calls `f.index.Truncate` here, not `f.data.Truncate`
      let f3 : VectorDB := { f2 with index := truncateFile f2.index newDataFileSize }
      (f3, none)

/-- **C3, version part**: keys of the same path are ordered by version. -/
theorem newKey_version_lt (P : Bytes) (v1 v2 : Nat) (h : v1 < v2)
    (h2 : v2 < 2 ^ 32) : bytesLt (NewKey P v1) (NewKey P v2) = true := by
  simp only [NewKey]
  rw [show ∀ X f, X ++ (f :: be32 v1) = (X ++ [f]) ++ be32 v1 from by simp,
    show ∀ X f, X ++ (f :: be32 v2) = (X ++ [f]) ++ be32 v2 from by simp,
    bytesLt_append_same]
  exact be32_lt h h2

end LT

namespace LT

/-! ## Versioned trie nodes (`ludicroustrie/internal/versionnode`)

`map[string]uint32` key sets become association lists; the 16-entry
`Children` array becomes a 16-element list. -/

/-- The reserved tombstone value `rlp.EmptyString` (`0x80`). -/
def deletedValue : Bytes := [0x80]

/-- `versionnode.KeySet`. -/
abbrev KeySet := List (Bytes × Nat)

def KeySet.containsKey (ks : KeySet) (path : Bytes) : Bool :=
  ks.any fun p => p.1 = path

/-- `KeySet.Remove` (returns a copy without the key). -/
def KeySet.removeKey (ks : KeySet) (path : Bytes) : KeySet :=
  ks.filter fun p => p.1 ≠ path

/-- `KeySet.Merge` (entries of `others` win). -/
def KeySet.merge (ks others : KeySet) : KeySet :=
  ks.filter (fun p => ¬ others.containsKey p.1) ++ others

/-- `NewKeySet`. -/
def KeySet.single (path : Bytes) (version : Nat) : KeySet := [(path, version)]

/-- The `versionnode.Node` interface hierarchy: `Nil`, `Value`, `Hash`,
`Leaf`, `Full`, `Stored` and the `WithDeletedKeys` decorator. -/
inductive VNode where
  | nil
  | value (v : Bytes)
  | hashRef (h : Bytes)
  | leaf (key : Bytes) (value : Bytes) (version : Nat)
  | full (key : Bytes) (children : List VNode) (version : Nat)
  | stored (hash : Bytes) (isLeaf : Bool) (version : Nat)
  | withDeletedKeys (node : VNode) (deletedKeys : KeySet)
deriving Repr

mutual
/-- Number of `Stored` placeholders in a node (used as a recursion measure
for the lazy-loading operations). -/
def storedCount : VNode → Nat
  | .stored _ _ _ => 1
  | .full _ ch _ => storedCountList ch
  | .withDeletedKeys n _ => storedCount n
  | _ => 0
def storedCountList : List VNode → Nat
  | [] => 0
  | c :: cs => storedCount c + storedCountList cs
end

/-- A fully materialised (in-memory) node. -/
def StoredFree (n : VNode) : Prop := storedCount n = 0

/-- Which variants implement the `versionnode.Live` interface
(`Nil`, `Leaf`, `Full`, `WithDeletedKeys`). -/
def VNode.isLive : VNode → Bool
  | .nil | .leaf _ _ _ | .full _ _ _ | .withDeletedKeys _ _ => true
  | _ => false

/-- `PrefixContainedIn` of each `Live` variant (`Nil` answers `false`). -/
def VNode.prefixContainedIn : VNode → Bytes → Nat → Bool
  | .nil, _, _ => false
  | .leaf k _ _, path, start => prefixLenFn k (path.drop start) = k.length
  | .full k _ _, path, start => prefixLenFn k (path.drop start) = k.length
  | .withDeletedKeys n _, path, start => n.prefixContainedIn path start
  | _, _, _ => false

/-- `Prefix()` of a `Live` node (`Nil` panics in Go; junk `[]` here,
call sites guarded). -/
def VNode.prefixOf : VNode → Bytes
  | .leaf k _ _ => k
  | .full k _ _ => k
  | .withDeletedKeys n _ => n.prefixOf
  | _ => []

/-- `ReplacePrefix` (`Nil` panics in Go; identity here, call sites
guarded). -/
def VNode.replacePrefix : VNode → Bytes → Nat → VNode
  | .leaf _ v _, key, version => .leaf key v version
  | .full _ ch _, key, version => .full key ch version
  | .withDeletedKeys n dk, key, version => .withDeletedKeys (n.replacePrefix key version) dk
  | n, _, _ => n

/-- A 16-slot all-`Nil` children list. -/
def nilChildren : List VNode := List.replicate 16 .nil

/-- `Children.Replace`. -/
def childrenReplace (ch : List VNode) (i : Nat) (n : VNode) : List VNode :=
  ch.set i n

/-- `Children.LastLivingChild`: index of the last non-`Nil` child and
whether it is the only one (`-1, false` when there is none). -/
def lastLivingChild (ch : List VNode) : Int × Bool :=
  ch.enum.foldl
    (fun acc p =>
      match p.2 with
      | .nil => acc
      | _ => (Int.ofNat p.1, acc.1 == -1))
    (-1, false)

/-- `AddSibling`: graft a new leaf next to an existing node whose prefix
diverges from the remaining search path. -/
def VNode.addSibling : VNode → Bytes → Bytes → Bytes → Nat → VNode
  | .nil, key, _, val, version => .leaf key val version
  | .leaf k v _, key, _, val, version =>
      let matchlen := prefixLenFn key k
      let commonOffset := key.take matchlen
      let currentChildIndex := k.getD matchlen 0
      let currentChild := VNode.leaf (k.drop (matchlen + 1)) v version
      let newChildIndex := key.getD matchlen 0
      let newChild := VNode.leaf (key.drop (matchlen + 1)) val version
      .full commonOffset
        ((nilChildren.set currentChildIndex currentChild).set newChildIndex newChild)
        version
  | .full k ch _, key, _, val, version =>
      let matchlen := prefixLenFn key k
      let commonOffset := key.take matchlen
      let updatedChildIndex := k.getD matchlen 0
      let children1 := nilChildren.set updatedChildIndex
        (VNode.full (k.drop (matchlen + 1)) ch version)
      let newChildIndex := key.getD matchlen 0
      let children2 := children1.set newChildIndex
        (VNode.leaf (key.drop (matchlen + 1)) val version)
      .full commonOffset children2 version
  | .withDeletedKeys n dk, key, fullPath, val, version =>
      let newNode := n.addSibling key fullPath val version
      if ¬ dk.containsKey fullPath then .withDeletedKeys newNode dk
      else
        let remaining := dk.removeKey fullPath
        if remaining.length = 0 then newNode
        else .withDeletedKeys newNode remaining
  | n, _, _, _, _ => n

end LT

namespace LT

mutual
/-- Computable recursion bound for a materialised node: at least the number
of `get`/`update`/`remove` recursion steps through it. -/
def nodeSize : VNode → Nat
  | .full _ ch _ => 1 + nodeSizeList ch
  | .withDeletedKeys n _ => 1 + nodeSize n
  | .leaf _ _ _ => 2
  | _ => 1
def nodeSizeList : List VNode → Nat
  | [] => 1
  | c :: cs => nodeSize c + nodeSizeList cs
end

theorem one_le_nodeSize (n : VNode) : 1 ≤ nodeSize n := by
  cases n <;> simp [nodeSize]

theorem one_le_nodeSizeList : (ch : List VNode) → 1 ≤ nodeSizeList ch
  | [] => by simp [nodeSizeList]
  | c :: cs => by
    have h1 := one_le_nodeSize c
    have h2 := one_le_nodeSizeList cs
    simp only [nodeSizeList]
    omega

theorem nodeSize_getD_le : (ch : List VNode) → (i : Nat) →
    nodeSize (ch.getD i .nil) ≤ nodeSizeList ch
  | [], i => by
    rw [List.getD_nil]
    simp [nodeSize, nodeSizeList]
  | c :: cs, 0 => by
    rw [List.getD_cons_zero]
    have := one_le_nodeSizeList cs
    simp only [nodeSizeList]
    omega
  | c :: cs, i + 1 => by
    have h1 := nodeSize_getD_le cs i
    have h2 := one_le_nodeSize c
    simp only [List.getD_cons_succ, nodeSizeList]
    omega

theorem nodeSize_getD_lt_full (k : Bytes) (ch : List VNode) (ver i : Nat) :
    nodeSize (ch.getD i VNode.nil) < nodeSize (VNode.full k ch ver) := by
  have := nodeSize_getD_le ch i
  simp only [nodeSize]
  omega

/-- The storage services the trie engine consumes: point/leaf/value loads
(`storage.Collection`) and the finalizer used for the integrity check when
a `Stored` node is re-materialised.  `none` models a failed lookup;
`loadLatestValue`'s `some v` is the returned `Value` node (a nil Go slice
becomes `[]`). -/
structure TrieCtx where
  loadNode : Bytes → Nat → Option VNode
  loadLeaf : Bytes → Nat → Option VNode
  loadLatestValue : Bytes → Nat → Option Bytes
  finalizeHash : VNode → Bytes → Option Bytes

/-- `LudicrousTrie.loadChild`. -/
def loadChild (ctx : TrieCtx) (path pfx : Bytes) (index : Nat) (isLeaf : Bool)
    (version : Nat) : Option VNode :=
  let temp := path ++ pfx ++ [index]
  if isLeaf then ctx.loadLeaf temp version else ctx.loadNode temp version

/-- `prependToKey`: the surviving child absorbs `prefix ++ [index]` in
front of its own prefix. -/
def prependToKey (node : VNode) (pfx : Bytes) (index : Nat) (version : Nat) : VNode :=
  node.replacePrefix (pfx ++ index :: node.prefixOf) version

/-- `LudicrousTrie.replaceChild`: install the new child; if only one living
child remains the branch is collapsed into it. -/
def replaceChild (ctx : TrieCtx) (tv : Nat) (fkey : Bytes) (fchildren : List VNode)
    (newChild : VNode) (newChildRadix : Nat) (path : Bytes) : Except String VNode :=
  let updatedChildren := childrenReplace fchildren newChildRadix newChild
  match lastLivingChild updatedChildren with
  | (childRadix, true) =>
      match updatedChildren.getD childRadix.toNat .nil with
      | .stored _ isLeaf ver =>
          match loadChild ctx path fkey childRadix.toNat isLeaf ver with
          | none => .error "loadChild failed"
          | some loaded => .ok (prependToKey loaded fkey childRadix.toNat tv)
      | c =>
          if c.isLive then .ok (prependToKey c fkey childRadix.toNat tv)
          else .error "replaceChild: unsupported node type"
  | _ => .ok (.full fkey updatedChildren tv)

inductive GetResult where
  | found (value : Bytes)
  | notFound
  | failed (err : String)
deriving Repr, DecidableEq

inductive UpdateResult where
  | updated (after : VNode)
  | unchanged
  | failed (err : String)
deriving Repr

inductive RemoveResult where
  | removed (after : VNode) (deletedKeys : KeySet)
  | notRemoved
  | failed (err : String)
deriving Repr

/-- `LudicrousTrie.get`, with `tv` the trie's current version.  The Go
recursion is structural on the runtime object graph; here an explicit fuel
argument drives the recursion (the public entry points supply
`sizeOf root`, which is proved sufficient for in-memory tries; only
lazy-loading paths through the storage oracle can exhaust it). -/
def getRec (ctx : TrieCtx) (tv : Nat) : Nat → VNode → Bytes → Nat → GetResult
  | 0, _, _, _ => .failed "recursion limit exceeded"
  | fuel + 1, n, path, index =>
    if n.isLive && !(n.prefixContainedIn path index) then .notFound
    else
      match n with
      | .value v => if v = deletedValue then .notFound else .found v
      | .leaf k v _ =>
          match getRec ctx tv fuel (.value v) path (index + k.length) with
          | .found v' => .found v'
          | .notFound => .notFound
          | .failed e => .failed e
      | .full k ch _ =>
          let childRadixIndex := index + k.length
          let childRadix := path.getD childRadixIndex 0
          let child := ch.getD childRadix .nil
          match getRec ctx tv fuel child path (childRadixIndex + 1) with
          | .found v' => .found v'
          | .notFound => .notFound
          | .failed e => .failed e
      | .withDeletedKeys inner dk =>
          if dk.containsKey path then .notFound
          else
            match getRec ctx tv fuel inner path index with
            | .found v' => .found v'
            | .notFound => .notFound
            | .failed e => .failed e
      | .stored _ _ _ =>
          match ctx.loadLatestValue path (tv - 1) with
          | none => .failed "storage error"
          | some v =>
              match getRec ctx tv fuel (.value v) path index with
              | .found v' => .found v'
              | .notFound => .notFound
              | .failed e => .failed e
      | .nil => .failed "unsupported n type"
      | .hashRef _ => .failed "unsupported n type"

/-- `loadForUpdate` / `loadForRemove`: leaf fast path or point load. -/
def loadForUpdate (ctx : TrieCtx) (pfx : Bytes) (isLeaf : Bool) (ver : Nat) :
    Option VNode :=
  if isLeaf then ctx.loadLeaf pfx ver else ctx.loadNode pfx ver

/-- `LudicrousTrie.update`. The two Go panics (finalize failure and hash
mismatch while re-materialising a `Stored` node) are modelled as `failed`
results tagged `panic:`. -/
def updateRec (ctx : TrieCtx) (tv : Nat) : Nat → VNode → Bytes → Nat → Bytes → UpdateResult
  | 0, _, _, _, _ => .failed "recursion limit exceeded"
  | fuel + 1, before, path, index, val =>
    if before.isLive && !(before.prefixContainedIn path index) then
      .updated (before.addSibling (path.drop index) path val tv)
    else
      match before with
      | .leaf k v _ =>
          if v = val then .unchanged
          else .updated (.leaf k val tv)
      | .full k ch _ =>
          let childRadixIndex := index + k.length
          let childRadix := path.getD childRadixIndex 0
          let child := ch.getD childRadix .nil
          match updateRec ctx tv fuel child path (childRadixIndex + 1) val with
          | .updated afterChild =>
              match replaceChild ctx tv k ch afterChild childRadix (path.take index) with
              | .error e => .failed e
              | .ok after => .updated after
          | .unchanged => .unchanged
          | .failed e => .failed e
      | .withDeletedKeys inner dk =>
          match updateRec ctx tv fuel inner path index val with
          | .updated after =>
              if dk.containsKey path then
                .updated (.withDeletedKeys after (dk.removeKey path))
              else
                .updated (.withDeletedKeys after dk)
          | .unchanged => .unchanged
          | .failed e => .failed e
      | .stored h isLf ver =>
          match loadForUpdate ctx (path.take index) isLf ver with
          | none => .failed "load failed"
          | some loaded =>
              match ctx.finalizeHash loaded path with
              | none => .failed "panic: finalize failed"
              | some fh =>
                if fh ≠ h then .failed "panic: hash mismatch"
                else
                  match updateRec ctx tv fuel loaded path index val with
                  | .updated after => .updated after
                  | .unchanged => .unchanged
                  | .failed e => .failed e
      | _ => .failed "unsupported node type"

/-- `LudicrousTrie.remove`. -/
def removeRec (ctx : TrieCtx) (tv : Nat) : Nat → VNode → Bytes → Nat → RemoveResult
  | 0, _, _, _ => .failed "recursion limit exceeded"
  | fuel + 1, before, path, index =>
    if before.isLive && !(before.prefixContainedIn path index) then .notRemoved
    else
      match before with
      | .leaf _ v _ =>
          if v = deletedValue then .failed "panic: should not find a deleted node"
          else .removed .nil (KeySet.single path tv)
      | .full k ch _ =>
          let childRadixIndex := index + k.length
          let childRadix := path.getD childRadixIndex 0
          let child := ch.getD childRadix .nil
          match removeRec ctx tv fuel child path (childRadixIndex + 1) with
          | .removed afterChild deletedKeys =>
              match replaceChild ctx tv k ch afterChild childRadix (path.take index) with
              | .error e => .failed e
              | .ok after =>
                  if deletedKeys.length = 0 then .removed after []
                  else .removed (.withDeletedKeys after deletedKeys) []
          | .notRemoved => .notRemoved
          | .failed e => .failed e
      | .withDeletedKeys inner dk =>
          if dk.containsKey path then .notRemoved
          else
            match removeRec ctx tv fuel inner path index with
            | .removed after newDeletedKeys =>
                let allDeletedKeys := dk.merge newDeletedKeys
                match after with
                | .nil => .removed after allDeletedKeys
                | _ => .removed (.withDeletedKeys after allDeletedKeys) []
            | .notRemoved => .notRemoved
            | .failed e => .failed e
      | .stored h isLf ver =>
          match loadForUpdate ctx (path.take index) isLf ver with
          | none => .failed "load failed"
          | some loaded =>
              match ctx.finalizeHash loaded (path.drop index) with
              | none => .failed "panic: finalize failed"
              | some fh =>
                if fh ≠ h then .failed "panic: hash mismatch"
                else
                  match removeRec ctx tv fuel loaded path index with
                  | .removed after newDeletedKeys => .removed after newDeletedKeys
                  | .notRemoved => .notRemoved
                  | .failed e => .failed e
      | _ => .failed "unsupported before type"

/-! ## Trie lifecycle and public operations (`ludicroustrie.go`) -/

/-- The in-memory trie: the in-progress version and the root node. -/
structure Trie where
  version : Nat
  root : VNode

/-- `NewEmptyLudicrousTrie` / `NewEmptyPrefixedLudicrousTrie`: root `Nil`,
in-progress version `version + 1`. -/
def Trie.newEmpty (version : Nat) : Trie :=
  { version := version + 1, root := .nil }

/-- `checkKey`: reject nil keys and keys that are not 32 bytes long
(`none` models a nil Go slice). -/
def checkKey (key : Option Bytes) : Option String :=
  match key with
  | none => some "key is nil"
  | some k => if k.length ≠ 32 then some "key is not 32 bytes long" else none

/-- `checkValue`: reject nil values and the reserved `0x80`. -/
def checkValue (value : Option Bytes) : Option String :=
  match value with
  | none => some "value is nil"
  | some v =>
      if v = deletedValue then
        some "value corresponds to empty RLP string, whose usage is reserved"
      else none

/-- `LudicrousTrie.Update`: the root is replaced only on `updated`. -/
def Trie.Update (ctx : TrieCtx) (t : Trie) (key val : Option Bytes) :
    Trie × Option String :=
  match checkKey key with
  | some e => (t, some e)
  | none =>
    match checkValue val with
    | some e => (t, some e)
    | none =>
      match updateRec ctx t.version (nodeSize t.root) t.root (keybytesHex (key.getD [])) 0 (val.getD []) with
      | .updated after => ({ t with root := after }, none)
      | .unchanged => (t, none)
      | .failed e => (t, some e)

/-- `LudicrousTrie.Remove`: a `Nil` result with outstanding tombstones is
wrapped in `WithDeletedKeys` before becoming the root. -/
def Trie.Remove (ctx : TrieCtx) (t : Trie) (key : Option Bytes) :
    Trie × Option String :=
  match checkKey key with
  | some e => (t, some e)
  | none =>
    match removeRec ctx t.version (nodeSize t.root) t.root (keybytesHex (key.getD [])) 0 with
    | .removed newRoot deletedKeys =>
        let newRoot' :=
          match newRoot, deletedKeys with
          | .nil, _ :: _ => VNode.withDeletedKeys newRoot deletedKeys
          | _, _ => newRoot
        ({ t with root := newRoot' }, none)
    | .notRemoved => (t, none)
    | .failed e => (t, some e)

/-- `LudicrousTrie.Get`. -/
def Trie.Get (ctx : TrieCtx) (t : Trie) (key : Option Bytes) :
    Option Bytes × Option String :=
  match checkKey key with
  | some e => (none, some e)
  | none =>
    match getRec ctx t.version (nodeSize t.root) t.root (keybytesHex (key.getD [])) 0 with
    | .found v => (some v, none)
    | .notFound => (none, none)
    | .failed e => (none, some e)

end LT

namespace LT

/-! ## Integrity nodes and RLP (`internal/integritynode`, finalizer)

Keccak-256 and the RLP encoder are external to the repository (spec §1
treats both as assumed available): Keccak is abstracted as a function
parameter, RLP is modelled from the spec below. -/

/-- An abstract Keccak-256: 32-byte digest of a byte string. -/
abbrev Keccak := Bytes → Bytes

/-- The root hash of an empty trie
(`56e81f171bcc55a6ff8345e692c0f86e5b48e01b996cadc001622fb5e363b421`). -/
def emptyRootBytes : Bytes :=
  [0x56, 0xe8, 0x1f, 0x17, 0x1b, 0xcc, 0x55, 0xa6,
   0xff, 0x83, 0x45, 0xe6, 0x92, 0xc0, 0xf8, 0x6e,
   0x5b, 0x48, 0xe0, 0x1b, 0x99, 0x6c, 0xad, 0xc0,
   0x01, 0x62, 0x2f, 0xb5, 0xe3, 0x63, 0xb4, 0x21]

/-- Modelled from the spec: minimal big-endian encoding of a length
(always below `2^64` here). -/
def natBE (n : Nat) : Bytes := (be64 n).dropWhile (· = 0)

/-- Modelled from the spec: RLP encoding of a byte string. -/
def rlpString (b : Bytes) : Bytes :=
  if b.length = 1 ∧ b.headD 0 < 128 then b
  else if b.length ≤ 55 then (128 + b.length) :: b
  else
    let lenBytes := natBE b.length
    (183 + lenBytes.length) :: (lenBytes ++ b)

/-- Modelled from the spec: RLP framing of an already-concatenated list
payload. -/
def rlpListPayload (p : Bytes) : Bytes :=
  if p.length ≤ 55 then (192 + p.length) :: p
  else
    let lenBytes := natBE p.length
    (247 + lenBytes.length) :: (lenBytes ++ p)

/-- Modelled from the spec: RLP encoding of an unsigned integer (minimal
big-endian string; zero is the empty string). -/
def rlpUint (v : Nat) : Bytes := rlpString (natBE v)

/-- `integritynode.Node`: the classical MPT node shapes used for hashing
(`Nil`, `Hash`, `Leaf`, `Extension`, `Full`); keys carry the compact
encoding. -/
inductive INode where
  | nil
  | hashN (h : Bytes)
  | leaf (key : Bytes) (val : Bytes)
  | ext (key : Bytes) (child : INode)
  | full (children : List INode)
deriving Repr

mutual
/-- RLP encoding of an integrity node, as `rlp.EncodeToBytes` produces for
the Go structures (structs become lists of their fields, `Full` encodes
its 17 children, `Nil` is the empty string). -/
def intRLP : INode → Bytes
  | .nil => rlpString []
  | .hashN h => rlpString h
  | .leaf key v => rlpListPayload (rlpString key ++ rlpString v)
  | .ext key child => rlpListPayload (rlpString key ++ intRLP child)
  | .full children => rlpListPayload (intRLPList children)
def intRLPList : List INode → Bytes
  | [] => []
  | c :: cs => intRLP c ++ intRLPList cs
end

/-- `storage.representsLeafNode`. -/
def representsLeafNode : VNode → Bool
  | .leaf _ _ _ => true
  | .stored _ isLf _ => isLf
  | .withDeletedKeys n _ => representsLeafNode n
  | _ => false

/-- `Version()` of a node (`Value`/`Hash`/`Nil` panic in Go; junk 0). -/
def VNode.versionOf : VNode → Nat
  | .leaf _ _ v => v
  | .full _ _ v => v
  | .stored _ _ v => v
  | .withDeletedKeys n _ => n.versionOf
  | _ => 0

/-- A staged batch write: structural-node (`'n'`) or value (`'v'`)
namespace record at `NewKey(path, version)`. -/
inductive WriteOp where
  | node (path : Bytes) (version : Nat) (bytes : Bytes)
  | value (path : Bytes) (version : Nat) (bytes : Bytes)
deriving Repr, DecidableEq

/-- `canonicalFullNodeIntegrityNodeAndRLP`: wrap a full node in a classical
extension when the branch carries a prefix, hashing the branch when its
encoding reaches 32 bytes. -/
def canonicalFullINodeAndRLP (K : Keccak) (full17 : INode) (key : Bytes) :
    INode × Bytes :=
  let integrityRLP := intRLP full17
  if key.length = 0 then (full17, integrityRLP)
  else
    let child := if 32 ≤ integrityRLP.length then INode.hashN (K integrityRLP) else full17
    let extension := INode.ext (hexCompact key) child
    (extension, intRLP extension)

/-- `storeFullNode`'s compact versioned-branch record (the 5-element form):
compact prefix, living mask, leaf mask, versions of living children in slot
order, integrity representations of living children. -/
def storeFullNodeEnc (ch : List VNode) (intChildren : List INode) (k : Bytes) : Bytes :=
  let living := (List.range 16).filter fun i =>
    match ch.getD i .nil with | .nil => false | _ => true
  let livingMask := living.foldl (fun m i => m ||| (1 <<< i)) 0
  let leafIdx := (List.range 16).filter fun i => representsLeafNode (ch.getD i .nil)
  let leafMask := leafIdx.foldl (fun m i => m ||| (1 <<< i)) 0
  let versions := living.map fun i => (ch.getD i .nil).versionOf
  let storageChildren := living.map fun i => intChildren.getD i .nil
  rlpListPayload (rlpString (hexCompact k) ++ rlpUint livingMask ++ rlpUint leafMask ++
    rlpListPayload (versions.map rlpUint).flatten ++
    rlpListPayload (storageChildren.map intRLP).flatten)

mutual
/-- `Finalizer.finalize`: compute the canonical integrity representation of
a subtree, staging batch writes when `store` is set.  The storage-path
length assertion of `finalizeLeafNode` is the Go panic. -/
def finalizeRec (K : Keccak) : VNode → Bytes → Bool → Bool →
    Except String (INode × List WriteOp)
  | .nil, _, _, forceHash =>
      if forceHash then .ok (.hashN emptyRootBytes, [])
      else .ok (.nil, [])
  | .withDeletedKeys inner dk, path, store, forceHash => do
      let writes := if store then dk.map (fun p => WriteOp.value p.1 p.2 deletedValue) else []
      let (i, ws) ← finalizeRec K inner path store forceHash
      .ok (i, writes ++ ws)
  | .leaf k v ver, path, store, forceHash =>
      let integrityLeaf := INode.leaf (hexCompact k) v
      let r := intRLP integrityLeaf
      let ws1 : List WriteOp := if forceHash ∧ store then [WriteOp.node path ver r] else []
      if store then
        let storagePath := hexJoin path k
        if storagePath.length ≠ 65 then .error "panic: storage path length"
        else
          let ws := ws1 ++ [WriteOp.value storagePath ver v]
          if 32 ≤ r.length ∨ forceHash then .ok (.hashN (K r), ws)
          else .ok (integrityLeaf, ws)
      else
        if 32 ≤ r.length ∨ forceHash then .ok (.hashN (K r), ws1)
        else .ok (integrityLeaf, ws1)
  | .full k ch ver, path, store, forceHash => do
      let (intChildren, ws) ← finalizeChildren K ch (path ++ k) 0 store
      let integrityFullNode := INode.full (intChildren ++ [INode.nil])
      let (canonicalNode, canonicalRLP) := canonicalFullINodeAndRLP K integrityFullNode k
      let ws2 :=
        if store ∧ (32 ≤ canonicalRLP.length ∨ forceHash) then
          ws ++ [WriteOp.node path ver (storeFullNodeEnc ch intChildren k)]
        else ws
      if 32 ≤ canonicalRLP.length ∨ forceHash then .ok (.hashN (K canonicalRLP), ws2)
      else .ok (canonicalNode, ws2)
  | .stored h _ _, _, _, _ => .ok (.hashN h, [])
  | _, _, _, _ => .error "finalize: unsupported Node type"

/-- `finalizeFullNodeChildren`: children in slot order at
`path ++ key ++ [i]`, never force-hashed. -/
def finalizeChildren (K : Keccak) : List VNode → Bytes → Nat → Bool →
    Except String (List INode × List WriteOp)
  | [], _, _, _ => .ok ([], [])
  | c :: cs, pathToChildren, i, store => do
      let (ic, w1) ← finalizeRec K c (pathToChildren ++ [i]) store false
      let (ics, w2) ← finalizeChildren K cs pathToChildren (i + 1) store
      .ok (ic :: ics, w1 ++ w2)
end

/-- `Finalizer.Finalize`: run `finalize` and cast the result to a hash (a
non-hash result makes the Go type assertion panic). -/
def Finalize (K : Keccak) (n : VNode) (path : Bytes) (shouldStore forceHash : Bool) :
    Except String (Bytes × List WriteOp) := do
  let (i, ws) ← finalizeRec K n path shouldStore forceHash
  match i with
  | .hashN h => .ok (h, ws)
  | _ => .error "panic: finalize result is not a hash"

/-- `LudicrousTrie.Hash`: finalize without storing, forcing the hash. -/
def Trie.Hash (K : Keccak) (t : Trie) : Except String (Bytes × List WriteOp) :=
  Finalize K t.root [] false true

/-- `LudicrousTrie.Commit`: bump the version, then finalize storing. -/
def Trie.Commit (K : Keccak) (t : Trie) :
    Trie × Except String (Bytes × List WriteOp) :=
  let t' : Trie := { t with version := t.version + 1 }
  (t', Finalize K t'.root [] true true)

end LT

namespace LT

/-! ## Semantic abstraction and well-formedness of in-memory tries -/

/-- Whether a node is the `Nil` variant. -/
def isNilN : VNode → Bool
  | .nil => true
  | _ => false

/-- Number of living (non-`Nil`) children. -/
def livingCount (ch : List VNode) : Nat :=
  (ch.filter fun c => !isNilN c).length

mutual
/-- The value addressed by `path` from depth `d` in a materialised
subtree, ignoring tombstone decorations: the abstract map the trie
represents. -/
def valueAt : VNode → Bytes → Nat → Option Bytes
  | .nil, _, _ => none
  | .leaf key v _, path, d => if path.drop d = key then some v else none
  | .full key ch _, path, d =>
      if prefixLenFn key (path.drop d) = key.length then
        valueAtChild ch (path.getD (d + key.length) 0) path (d + key.length + 1)
      else none
  | .withDeletedKeys inner _, path, d => valueAt inner path d
  | _, _, _ => none
def valueAtChild : List VNode → Nat → Bytes → Nat → Option Bytes
  | [], _, _, _ => none
  | c :: _, 0, path, d => valueAt c path d
  | _ :: cs, i + 1, path, d => valueAtChild cs i path d
end

/-- A full 65-nibble value path: 64 nibbles `< 16` and the terminator. -/
def IsFullPath (p : Bytes) : Prop :=
  p.length = 65 ∧ (∀ i, i < 64 → p.getD i 0 < 16) ∧ p.getD 64 0 = 16

/-- Well-formedness of a materialised subtree sitting under the absolute
nibble prefix `pre`: leaf keys complete the 65-nibble path, branches have
16 children, at least 2 living, prefixes within bounds, and tombstone
overlays only list full paths of this subtree that have no value in it. -/
inductive WF : Bytes → VNode → Prop where
  | nil : ∀ pre, WF pre .nil
  | leaf : ∀ pre key v ver,
      pre.length + key.length = 65 →
      (∀ i, i + 1 < key.length → key.getD i 0 < 16) →
      key.getLast? = some 16 →
      v ≠ deletedValue →
      WF pre (.leaf key v ver)
  | full : ∀ pre key ch ver,
      ch.length = 16 →
      pre.length + key.length ≤ 63 →
      (∀ x ∈ key, x < 16) →
      2 ≤ livingCount ch →
      (∀ i, i < 16 → WF (pre ++ key ++ [i]) (ch.getD i .nil)) →
      WF pre (.full key ch ver)
  | wdk : ∀ pre inner dk,
      WF pre inner →
      (∀ p ∈ dk, IsFullPath p.1 ∧ p.1.take pre.length = pre ∧
        valueAt inner p.1 pre.length = none) →
      WF pre (.withDeletedKeys inner dk)

/-! ### Prefix-length and path lemmas -/

theorem prefixLenFn_comm : (a b : Bytes) → prefixLenFn a b = prefixLenFn b a
  | [], [] => rfl
  | [], _ :: _ => rfl
  | _ :: _, [] => rfl
  | a :: as, b :: bs => by
    simp only [prefixLenFn]
    by_cases h : a = b
    · subst h
      rw [if_pos rfl, if_pos rfl, prefixLenFn_comm as bs]
    · rw [if_neg h, if_neg (fun hh => h hh.symm)]

theorem prefixLenFn_le_left : (a b : Bytes) → prefixLenFn a b ≤ a.length
  | [], _ => by simp [prefixLenFn]
  | _ :: _, [] => by simp [prefixLenFn]
  | a :: as, b :: bs => by
    simp only [prefixLenFn, List.length_cons]
    by_cases h : a = b
    · rw [if_pos h]
      have := prefixLenFn_le_left as bs
      omega
    · rw [if_neg h]
      omega

theorem prefixLenFn_le_right (a b : Bytes) : prefixLenFn a b ≤ b.length := by
  rw [prefixLenFn_comm]
  exact prefixLenFn_le_left b a

theorem prefixLenFn_refl : (a : Bytes) → prefixLenFn a a = a.length
  | [] => rfl
  | a :: as => by simp [prefixLenFn, prefixLenFn_refl as]

/-- Agreement below the common prefix length. -/
theorem prefixLenFn_take : (a b : Bytes) → a.take (prefixLenFn a b) = b.take (prefixLenFn a b)
  | [], b => by cases b <;> simp [prefixLenFn]
  | _ :: _, [] => by simp [prefixLenFn]
  | a :: as, b :: bs => by
    simp only [prefixLenFn]
    by_cases h : a = b
    · subst h
      rw [if_pos rfl]
      simp [prefixLenFn_take as bs]
    · rw [if_neg h]
      simp

/-- Mismatch at the common prefix length (when both sides extend it). -/
theorem prefixLenFn_mismatch : (a b : Bytes) →
    prefixLenFn a b < a.length → prefixLenFn a b < b.length →
    a.getD (prefixLenFn a b) 0 ≠ b.getD (prefixLenFn a b) 0
  | [], _, ha, _ => by simp [prefixLenFn] at ha
  | _ :: _, [], _, hb => by simp [prefixLenFn] at hb
  | a :: as, b :: bs, ha, hb => by
    simp only [prefixLenFn] at ha hb ⊢
    by_cases h : a = b
    · rw [if_pos h] at ha hb ⊢
      simp only [List.getD_cons_succ]
      exact prefixLenFn_mismatch as bs (by simpa using ha) (by simpa using hb)
    · rw [if_neg h]
      simpa using h

/-- Full containment is equality of the shorter with the other's prefix. -/
theorem prefixLenFn_eq_length_iff (a b : Bytes) :
    prefixLenFn a b = a.length ↔ a = b.take a.length := by
  constructor
  · intro h
    have := prefixLenFn_take a b
    rw [h] at this
    simpa using this
  · intro h
    have hlen : a.length ≤ b.length := by
      conv_lhs => rw [h]
      simp
    have h1 := prefixLenFn_le_left a b
    rcases Nat.lt_or_ge (prefixLenFn a b) a.length with hlt | hge
    · exfalso
      have hm := prefixLenFn_mismatch a b hlt (by omega)
      apply hm
      have : a.getD (prefixLenFn a b) 0 = (b.take a.length).getD (prefixLenFn a b) 0 := by
        rw [← h]
      rw [this, List.getD_eq_getElem?_getD, List.getElem?_take, if_pos hlt,
        ← List.getD_eq_getElem?_getD]
    · omega

theorem prefixLenFn_take_self (l : Bytes) (m : Nat) (hm : m ≤ l.length) :
    prefixLenFn (l.take m) l = m := by
  have h := (prefixLenFn_eq_length_iff (l.take m) l).mpr
    (by rw [List.length_take]; simp [Nat.min_eq_left hm])
  rw [h, List.length_take]
  exact Nat.min_eq_left hm

/-- Decompose a list around position `m`. -/
theorem list_decomp (l : Bytes) (m : Nat) (hm : m < l.length) :
    l = l.take m ++ l.getD m 0 :: l.drop (m + 1) := by
  conv_lhs => rw [← List.take_append_drop m l]
  rw [List.drop_eq_getElem_cons hm, List.getD_eq_getElem l 0 hm]

end LT

namespace LT

theorem getD_set_self (ch : List VNode) (i : Nat) (x : VNode) (h : i < ch.length) :
    (ch.set i x).getD i .nil = x := by
  rw [List.getD_eq_getElem?_getD, List.getElem?_set, if_pos rfl, if_pos h]
  rfl

theorem getD_set_ne (ch : List VNode) {i j : Nat} (x : VNode) (h : i ≠ j) :
    (ch.set i x).getD j .nil = ch.getD j .nil := by
  rw [List.getD_eq_getElem?_getD, List.getElem?_set, if_neg h,
    ← List.getD_eq_getElem?_getD]

theorem valueAtChild_eq : (ch : List VNode) → (i : Nat) → (path : Bytes) → (d : Nat) →
    valueAtChild ch i path d = valueAt (ch.getD i .nil) path d
  | [], i, _, _ => by cases i <;> rfl
  | _ :: _, 0, _, _ => by
    rw [List.getD_cons_zero]
    rfl
  | _ :: cs, i + 1, path, d => by
    rw [List.getD_cons_succ]
    exact valueAtChild_eq cs i path d

theorem getD_drop (l : Bytes) (d m : Nat) :
    (l.drop d).getD m 0 = l.getD (d + m) 0 := by
  rw [List.getD_eq_getElem?_getD, List.getElem?_drop, ← List.getD_eq_getElem?_getD]

theorem drop_drop_add (l : Bytes) (d m : Nat) :
    (l.drop d).drop m = l.drop (d + m) := by
  rw [List.drop_drop]

theorem eq_of_take_drop {q p : Bytes} (d : Nat)
    (h1 : q.take d = p.take d) (h2 : q.drop d = p.drop d) : q = p := by
  rw [← List.take_append_drop d q, ← List.take_append_drop d p, h1, h2]

theorem take_add_take {q : Bytes} {d m : Nat} :
    (q.take (d + m)).take d = q.take d := by
  rw [List.take_take]
  congr 1
  omega

/-! ### Full-path facts -/

theorem IsFullPath.len {p : Bytes} (h : IsFullPath p) : p.length = 65 := h.1

theorem IsFullPath.nib {p : Bytes} (h : IsFullPath p) {i : Nat} (hi : i < 64) :
    p.getD i 0 < 16 := h.2.1 i hi

theorem IsFullPath.drop_getLast {p : Bytes} (h : IsFullPath p) {d : Nat}
    (hd : d ≤ 64) : (p.drop d).getLast? = some 16 := by
  have hlen : p.length = 65 := h.1
  rw [List.getLast?_drop, if_neg (by omega : ¬ p.length ≤ d)]
  have h64 : p.getD 64 0 = 16 := h.2.2
  have hlt : (64:Nat) < p.length := by omega
  rw [List.getD_eq_getElem p 0 hlt] at h64
  rw [List.getLast?_eq_getElem?]
  rw [show p.length - 1 = 64 by omega]
  rw [List.getElem?_eq_getElem hlt, h64]

/-- Under matching lengths, prefix containment of a leaf key is equality
with the remaining path. -/
theorem contained_iff_drop_eq {key p : Bytes} {d : Nat}
    (hlen : (p.drop d).length = key.length) :
    prefixLenFn key (p.drop d) = key.length ↔ p.drop d = key := by
  rw [prefixLenFn_eq_length_iff]
  constructor
  · intro h
    rw [h, List.take_of_length_le (by omega)]
  · intro h
    rw [h, List.take_of_length_le (by omega)]

/-! ### KeySet lemmas -/

theorem KeySet.containsKey_iff (ks : KeySet) (path : Bytes) :
    ks.containsKey path = true ↔ ∃ v, (path, v) ∈ ks := by
  simp only [KeySet.containsKey, List.any_eq_true, decide_eq_true_eq]
  constructor
  · rintro ⟨⟨p1, v⟩, hmem, he⟩
    exact ⟨v, he ▸ hmem⟩
  · rintro ⟨v, hmem⟩
    exact ⟨(path, v), hmem, rfl⟩

theorem KeySet.mem_removeKey {ks : KeySet} {path : Bytes} {q : Bytes × Nat} :
    q ∈ ks.removeKey path ↔ q ∈ ks ∧ q.1 ≠ path := by
  simp [KeySet.removeKey, List.mem_filter]

theorem KeySet.mem_merge {ks others : KeySet} {q : Bytes × Nat} :
    q ∈ ks.merge others ↔ (q ∈ ks ∧ others.containsKey q.1 = false) ∨ q ∈ others := by
  simp only [KeySet.merge, List.mem_append, List.mem_filter, decide_eq_true_eq]
  constructor
  · rintro (⟨h1, h2⟩ | h)
    · left
      refine ⟨h1, ?_⟩
      cases hc : others.containsKey q.1
      · rfl
      · exact absurd hc (by simpa using h2)
    · right; exact h
  · rintro (⟨h1, h2⟩ | h)
    · left
      exact ⟨h1, by simp [h2]⟩
    · right; exact h

end LT

namespace LT

/-! ### Living-children lemmas -/

theorem livingCount_cons (c : VNode) (cs : List VNode) :
    livingCount (c :: cs) = (if isNilN c then 0 else 1) + livingCount cs := by
  simp only [livingCount, List.filter_cons]
  cases h : isNilN c <;> simp [h] <;> omega

theorem one_le_livingCount_of_living : (ch : List VNode) → (j : Nat) →
    j < ch.length → isNilN (ch.getD j .nil) = false → 1 ≤ livingCount ch
  | [], j, hj, _ => by simp at hj
  | c :: cs, 0, _, hliv => by
    rw [List.getD_cons_zero] at hliv
    rw [livingCount_cons, hliv]
    simp only [Bool.false_eq_true, if_false]
    omega
  | c :: cs, j + 1, hj, hliv => by
    rw [List.getD_cons_succ] at hliv
    have := one_le_livingCount_of_living cs j (by simpa using hj) hliv
    rw [livingCount_cons]
    omega

theorem two_le_livingCount : (ch : List VNode) → (i j : Nat) → i ≠ j →
    i < ch.length → j < ch.length →
    isNilN (ch.getD i .nil) = false → isNilN (ch.getD j .nil) = false →
    2 ≤ livingCount ch
  | [], i, j, _, hi, _, _, _ => by simp at hi
  | c :: cs, 0, 0, hij, _, _, _, _ => absurd rfl hij
  | c :: cs, 0, j + 1, _, _, hj, hni, hnj => by
    rw [List.getD_cons_zero] at hni
    rw [List.getD_cons_succ] at hnj
    have := one_le_livingCount_of_living cs j (by simpa using hj) hnj
    rw [livingCount_cons, hni]
    simp only [Bool.false_eq_true, if_false]
    omega
  | c :: cs, i + 1, 0, _, hi, _, hni, hnj => by
    rw [List.getD_cons_succ] at hni
    rw [List.getD_cons_zero] at hnj
    have := one_le_livingCount_of_living cs i (by simpa using hi) hni
    rw [livingCount_cons, hnj]
    simp only [Bool.false_eq_true, if_false]
    omega
  | c :: cs, i + 1, j + 1, hij, hi, hj, hni, hnj => by
    rw [List.getD_cons_succ] at hni hnj
    have := two_le_livingCount cs i j (by omega) (by simpa using hi)
      (by simpa using hj) hni hnj
    rw [livingCount_cons]
    omega

theorem livingCount_set_eq : (ch : List VNode) → (i : Nat) → (x : VNode) →
    i < ch.length →
    livingCount (ch.set i x) + (if isNilN (ch.getD i .nil) then 0 else 1)
      = livingCount ch + (if isNilN x then 0 else 1)
  | [], i, _, hi => by simp at hi
  | c :: cs, 0, x, _ => by
    rw [List.set_cons_zero, List.getD_cons_zero, livingCount_cons,
      livingCount_cons]
    cases hc : isNilN c <;> cases hx : isNilN x <;> simp [hc, hx] <;> omega
  | c :: cs, i + 1, x, hi => by
    rw [List.set_cons_succ, List.getD_cons_succ, livingCount_cons,
      livingCount_cons]
    have := livingCount_set_eq cs i x (by simpa using hi)
    omega

theorem livingCount_zero_getD : (ch : List VNode) → livingCount ch = 0 →
    (j : Nat) → j < ch.length → isNilN (ch.getD j .nil) = true
  | [], _, j, hj => by simp at hj
  | c :: cs, h0, 0, _ => by
    rw [livingCount_cons] at h0
    rw [List.getD_cons_zero]
    cases h : isNilN c
    · rw [h] at h0; simp at h0
    · rfl
  | c :: cs, h0, j + 1, hj => by
    rw [livingCount_cons] at h0
    rw [List.getD_cons_succ]
    exact livingCount_zero_getD cs (by omega) j (by simpa using hj)

/-- Characterisation of the `LastLivingChild` fold: when any child lives,
the fold reports the index of the last living one, and the only-child flag
holds exactly when there is a single living child and the accumulator was
fresh. -/
theorem llcFold : (cs : List VNode) → (k : Nat) → (acc : Int × Bool) →
    (livingCount cs = 0 →
      List.foldl (fun acc p => match p.2 with
        | VNode.nil => acc
        | _ => (Int.ofNat p.1, acc.1 == -1)) acc (List.enumFrom k cs) = acc) ∧
    (1 ≤ livingCount cs →
      ∃ j, j < cs.length ∧ isNilN (cs.getD j .nil) = false ∧
        List.foldl (fun acc p => match p.2 with
          | VNode.nil => acc
          | _ => (Int.ofNat p.1, acc.1 == -1)) acc (List.enumFrom k cs) =
          (Int.ofNat (k + j), decide (livingCount cs = 1) && (acc.1 == -1)))
  | [], k, acc => by
    refine ⟨fun _ => rfl, fun h => ?_⟩
    simp [livingCount] at h
  | c :: cs, k, acc => by
    have hcount := livingCount_cons c cs
    cases c
    case nil =>
      simp only [isNilN, if_true] at hcount
      refine ⟨fun h0 => ?_, fun h1 => ?_⟩
      · simp only [List.enumFrom_cons, List.foldl_cons]
        exact (llcFold cs (k + 1) acc).1 (by omega)
      · obtain ⟨j, hj, hliv, hfold⟩ := (llcFold cs (k + 1) acc).2 (by omega)
        refine ⟨j + 1, by simpa using hj, by simpa using hliv, ?_⟩
        simp only [List.enumFrom_cons, List.foldl_cons]
        rw [hfold, show k + 1 + j = k + (j + 1) from by omega, hcount,
          Nat.zero_add]
    all_goals {
      simp only [isNilN] at hcount
      rw [if_neg (by simp)] at hcount
      refine ⟨fun h0 => by omega, fun h1 => ?_⟩
      by_cases hcs : livingCount cs = 0
      · refine ⟨0, by simp, by simp [isNilN], ?_⟩
        simp only [List.enumFrom_cons, List.foldl_cons]
        rw [(llcFold cs (k + 1) _).1 hcs, hcount,
          decide_eq_true (by omega : 1 + livingCount cs = 1), Bool.true_and]
        simp
      · obtain ⟨j, hj, hliv, hfold⟩ :=
          (llcFold cs (k + 1) (Int.ofNat k, acc.1 == -1)).2 (by omega)
        refine ⟨j + 1, by simpa using hj, by simpa using hliv, ?_⟩
        simp only [List.enumFrom_cons, List.foldl_cons]
        rw [hfold, show k + 1 + j = k + (j + 1) from by omega]
        have hk : ((Int.ofNat k : Int) == -1) = false := by simp
        rw [hk, Bool.and_false, hcount,
          decide_eq_false (by omega : ¬ (1 + livingCount cs = 1)), Bool.false_and]
    }

end LT

namespace LT

/-! ### Further list decomposition lemmas -/

/-- Splitting an equality with a `take` over an append. -/
theorem take_append_iff (xs ys l : Bytes) :
    xs ++ ys = l.take (xs.length + ys.length) ↔
      (xs = l.take xs.length ∧ ys = (l.drop xs.length).take ys.length) := by
  constructor
  · intro h
    constructor
    · have := congrArg (List.take xs.length) h
      rw [List.take_left, List.take_take, Nat.min_eq_left (by omega)] at this
      exact this
    · have := congrArg (List.drop xs.length) h
      rw [List.drop_left, List.drop_take,
        show xs.length + ys.length - xs.length = ys.length from by omega] at this
      exact this
  · rintro ⟨h1, h2⟩
    rw [List.take_add, ← h1, ← h2]

/-- Prefix containment splits over an appended key. -/
theorem prefixLen_append_iff (xs ys l : Bytes) :
    prefixLenFn (xs ++ ys) l = xs.length + ys.length ↔
      (prefixLenFn xs l = xs.length ∧ prefixLenFn ys (l.drop xs.length) = ys.length) := by
  rw [show xs.length + ys.length = (xs ++ ys).length by simp,
    prefixLenFn_eq_length_iff, prefixLenFn_eq_length_iff, prefixLenFn_eq_length_iff]
  rw [List.length_append]
  exact take_append_iff xs ys l

/-- An equality with an append splits into a `take` and a `drop` part. -/
theorem append_eq_take_drop (D xs k : Bytes) :
    D = xs ++ k ↔ (xs = D.take xs.length ∧ D.drop xs.length = k) := by
  constructor
  · rintro rfl
    rw [List.take_left, List.drop_left]
    exact ⟨rfl, rfl⟩
  · rintro ⟨h1, h2⟩
    conv_lhs => rw [← List.take_append_drop xs.length D]
    rw [← h1, h2]

/-- `take (m + 1)` exposes the element at position `m`. -/
theorem take_succ_getD (l : Bytes) (m : Nat) (hm : m < l.length) :
    l.take (m + 1) = l.take m ++ [l.getD m 0] := by
  rw [List.take_succ, List.getElem?_eq_getElem hm, List.getD_eq_getElem l 0 hm]
  rfl

/-- Two lists agreeing on `take d`, position `d + m` (in range), the slice
between and the tail beyond `d + m` are equal. -/
theorem eq_of_parts {q p : Bytes} (d m : Nat)
    (hq : d + m < q.length) (hp : d + m < p.length)
    (h1 : q.take d = p.take d)
    (h2 : (q.drop d).take m = (p.drop d).take m)
    (h3 : q.getD (d + m) 0 = p.getD (d + m) 0)
    (h4 : q.drop (d + m + 1) = p.drop (d + m + 1)) : q = p := by
  apply eq_of_take_drop (d + m)
  · rw [List.take_add, List.take_add, h1, h2]
  · rw [List.drop_eq_getElem_cons hq, List.drop_eq_getElem_cons hp,
      ← List.getD_eq_getElem q 0 hq, ← List.getD_eq_getElem p 0 hp, h3, h4]

/-- Characterisation of being an initial segment, split at an inner
position `m`. -/
theorem take_eq_parts_iff {k Q : Bytes} {m : Nat} (hm : m < k.length)
    (hQ : k.length ≤ Q.length) :
    k = Q.take k.length ↔
      (k.take m = Q.take m ∧ k.getD m 0 = Q.getD m 0 ∧
        k.drop (m + 1) = (Q.drop (m + 1)).take (k.length - (m + 1))) := by
  constructor
  · intro h
    refine ⟨?_, ?_, ?_⟩
    · rw [h, List.take_take, Nat.min_eq_left (by omega)]
    · rw [h, List.getD_eq_getElem?_getD, List.getElem?_take, if_pos hm,
        ← List.getD_eq_getElem?_getD]
    · conv_lhs => rw [h]
      rw [List.drop_take]
  · rintro ⟨h1, h2, h3⟩
    have hQm : m < Q.length := by omega
    calc k = k.take m ++ k.getD m 0 :: k.drop (m + 1) := list_decomp k m hm
      _ = Q.take m ++ Q.getD m 0 :: (Q.drop (m + 1)).take (k.length - (m + 1)) := by
          rw [h1, h2, h3]
      _ = Q.take (m + ((k.length - (m + 1)) + 1)) := by
          rw [List.take_add, List.drop_eq_getElem_cons hQm,
            ← List.getD_eq_getElem Q 0 hQm, List.take_succ_cons]
      _ = Q.take k.length := by
          rw [show m + ((k.length - (m + 1)) + 1) = k.length from by omega]

/-- Elements of an initial segment whose positions carry a bound. -/
theorem take_all_lt : (l : Bytes) → (m c : Nat) →
    (∀ i, i < m → l.getD i 0 < c) → ∀ x ∈ l.take m, x < c
  | _, 0, _, _ => by simp
  | [], _ + 1, _, _ => by simp
  | a :: l, m + 1, c, h => by
    intro x hx
    rw [List.take_succ_cons] at hx
    rcases List.mem_cons.mp hx with rfl | hx
    · exact h 0 (by omega)
    · exact take_all_lt l m c (fun i hi => h (i + 1) (by omega)) x hx

theorem getD_mem (l : Bytes) (i : Nat) (h : i < l.length) : l.getD i 0 ∈ l := by
  rw [List.getD_eq_getElem l 0 h]
  exact List.getElem_mem h

theorem nilChildren_getD (i : Nat) : nilChildren.getD i .nil = .nil := by
  rcases Nat.lt_or_ge i 16 with h | h
  · rw [List.getD_eq_getElem _ _ (by simpa [nilChildren] using h)]
    simp only [nilChildren, List.getElem_replicate]
  · rw [List.getD_eq_default]
    simpa [nilChildren] using h

theorem livingCount_nilChildren : livingCount nilChildren = 0 := by decide

/-! ### Basic facts about the abstraction -/

theorem WF_isLive {pre : Bytes} {n : VNode} (h : WF pre n) : n.isLive = true := by
  cases h <;> rfl

/-- A node whose prefix is not on the search path holds no value for it. -/
theorem valueAt_none_of_not_contained : (n : VNode) → (path : Bytes) → (d : Nat) →
    n.prefixContainedIn path d = false → valueAt n path d = none
  | .nil, _, _, _ => rfl
  | .value _, _, _, _ => rfl
  | .hashRef _, _, _, _ => rfl
  | .stored _ _ _, _, _, _ => rfl
  | .leaf k _ _, path, d, h => by
    simp only [VNode.prefixContainedIn, decide_eq_false_iff_not] at h
    simp only [valueAt]
    rw [if_neg]
    intro he
    exact h (by rw [he, prefixLenFn_refl])
  | .full k _ _, path, d, h => by
    simp only [VNode.prefixContainedIn, decide_eq_false_iff_not] at h
    simp only [valueAt]
    rw [if_neg h]
  | .withDeletedKeys inner _, path, d, h => by
    simp only [VNode.prefixContainedIn] at h
    simp only [valueAt]
    exact valueAt_none_of_not_contained inner path d h

theorem isNilN_replacePrefix (c : VNode) (k : Bytes) (v : Nat) :
    isNilN (c.replacePrefix k v) = isNilN c := by
  cases c <;> rfl

theorem containsKey_false_ne {ks : KeySet} {path : Bytes}
    (h : ks.containsKey path = false) : ∀ p ∈ ks, p.1 ≠ path := by
  intro p hp he
  rw [KeySet.containsKey, List.any_eq_false] at h
  exact absurd (by simpa using he) (h p hp)

theorem KeySet.merge_nil (ks : KeySet) : ks.merge [] = ks := by
  rw [KeySet.merge, List.append_nil, List.filter_eq_self]
  intro a _
  simp [KeySet.containsKey]

/-- Semantics of prepending `pfx ++ [i]` to a node's own prefix: the node
answers exactly the queries that pass through the absorbed segment. -/
theorem valueAt_prepend : (m : VNode) → (pfx : Bytes) → (i ver : Nat) →
    (path : Bytes) → (d : Nat) →
    valueAt (m.replacePrefix (pfx ++ i :: m.prefixOf) ver) path d
      = if prefixLenFn (pfx ++ [i]) (path.drop d) = pfx.length + 1
        then valueAt m path (d + (pfx.length + 1)) else none
  | .nil, pfx, i, ver, path, d => by
    simp [VNode.replacePrefix, valueAt, ite_self]
  | .value v', pfx, i, ver, path, d => by
    simp [VNode.replacePrefix, valueAt, ite_self]
  | .hashRef h, pfx, i, ver, path, d => by
    simp [VNode.replacePrefix, valueAt, ite_self]
  | .stored h b v', pfx, i, ver, path, d => by
    simp [VNode.replacePrefix, valueAt, ite_self]
  | .leaf k v' ver', pfx, i, ver, path, d => by
    simp only [VNode.replacePrefix, VNode.prefixOf, valueAt]
    have hlen : (pfx ++ [i]).length = pfx.length + 1 := by simp
    have hD : (path.drop d = pfx ++ i :: k) ↔
        (prefixLenFn (pfx ++ [i]) (path.drop d) = pfx.length + 1 ∧
          path.drop (d + (pfx.length + 1)) = k) := by
      rw [show (pfx ++ i :: k : Bytes) = (pfx ++ [i]) ++ k from by simp,
        append_eq_take_drop, hlen, drop_drop_add]
      exact and_congr
        (by rw [show (pfx.length + 1 : Nat) = (pfx ++ [i]).length from hlen.symm]
            exact (prefixLenFn_eq_length_iff _ _).symm)
        Iff.rfl
    by_cases h1 : prefixLenFn (pfx ++ [i]) (path.drop d) = pfx.length + 1
    · rw [if_pos h1]
      by_cases h2 : path.drop (d + (pfx.length + 1)) = k
      · rw [if_pos (hD.mpr ⟨h1, h2⟩), if_pos h2]
      · rw [if_neg (fun hh => h2 (hD.mp hh).2), if_neg h2]
    · rw [if_neg h1, if_neg (fun hh => h1 (hD.mp hh).1)]
  | .full k ch ver', pfx, i, ver, path, d => by
    simp only [VNode.replacePrefix, VNode.prefixOf, valueAt]
    have hsplit : (prefixLenFn (pfx ++ i :: k) (path.drop d) = (pfx ++ i :: k).length) ↔
        (prefixLenFn (pfx ++ [i]) (path.drop d) = pfx.length + 1 ∧
          prefixLenFn k (path.drop (d + (pfx.length + 1))) = k.length) := by
      rw [show (pfx ++ i :: k : Bytes) = (pfx ++ [i]) ++ k from by simp,
        show ((pfx ++ [i]) ++ k).length = (pfx ++ [i]).length + k.length from by
          simp
          omega,
        show (pfx ++ [i]).length = pfx.length + 1 from by simp,
        ← drop_drop_add]
      rw [show (pfx.length + 1 : Nat) = (pfx ++ [i]).length from by simp]
      exact prefixLen_append_iff (pfx ++ [i]) k (path.drop d)
    have harith : d + (pfx ++ i :: k).length = d + (pfx.length + 1) + k.length := by
      simp
      omega
    by_cases h1 : prefixLenFn (pfx ++ [i]) (path.drop d) = pfx.length + 1
    · rw [if_pos h1]
      by_cases h2 : prefixLenFn k (path.drop (d + (pfx.length + 1))) = k.length
      · rw [if_pos (hsplit.mpr ⟨h1, h2⟩), if_pos h2, harith]
      · rw [if_neg (fun hh => h2 (hsplit.mp hh).2), if_neg h2]
    · rw [if_neg h1, if_neg (fun hh => h1 (hsplit.mp hh).1)]
  | .withDeletedKeys inner dk, pfx, i, ver, path, d => by
    simp only [VNode.replacePrefix, VNode.prefixOf, valueAt]
    exact valueAt_prepend inner pfx i ver path d

theorem getLast?_append_right (l₁ l₂ : Bytes) (h : l₂ ≠ []) :
    (l₁ ++ l₂).getLast? = l₂.getLast? := by
  have hl : 1 ≤ l₂.length := List.length_pos.mpr h
  rw [List.getLast?_eq_getElem?, List.getLast?_eq_getElem?, List.length_append,
    List.getElem?_append_right (by omega : l₁.length ≤ l₁.length + l₂.length - 1)]
  congr 1
  omega

/-- The absorbed prefix `fkey ++ [j]` keeps a collapsed branch's surviving
child well-formed one level up. -/
theorem prepend_WF (pre fkey : Bytes) (j tv : Nat)
    (hkb : pre.length + fkey.length ≤ 63) (hknib : ∀ x ∈ fkey, x < 16)
    (hj : j < 16) :
    (c : VNode) → WF (pre ++ fkey ++ [j]) c →
    WF pre (prependToKey c fkey j tv)
  | .nil, _ => by
    simp only [prependToKey, VNode.replacePrefix]
    exact WF.nil pre
  | .value v, hwf => by cases hwf
  | .hashRef h, hwf => by cases hwf
  | .stored h b v, hwf => by cases hwf
  | .leaf k v ver, hwf => by
    simp only [prependToKey, VNode.replacePrefix, VNode.prefixOf]
    cases hwf with
    | leaf _ _ _ _ h65 hnib hlast hv =>
      have hk0 : k ≠ [] := by
        intro he
        rw [he] at hlast
        simp at hlast
      have h65' : pre.length + (fkey.length + 1) + k.length = 65 := by
        simp at h65
        omega
      refine WF.leaf pre _ v tv (by simp; omega) ?_ ?_ hv
      · intro i hi
        simp only [List.length_append, List.length_cons] at hi
        rcases Nat.lt_or_ge i fkey.length with hlt | hge
        · rw [List.getD_append _ _ _ _ hlt]
          exact hknib _ (getD_mem fkey i hlt)
        · rw [List.getD_append_right _ _ _ _ hge]
          rcases Nat.eq_or_lt_of_le hge with heq | hgt
          · rw [← heq, Nat.sub_self, List.getD_cons_zero]
            exact hj
          · have : i - fkey.length = (i - fkey.length - 1) + 1 := by omega
            rw [this, List.getD_cons_succ]
            exact hnib _ (by omega)
      · rw [show (fkey ++ j :: k : Bytes) = (fkey ++ [j]) ++ k from by simp,
          getLast?_append_right _ _ hk0]
        exact hlast
  | .full k ch ver, hwf => by
    simp only [prependToKey, VNode.replacePrefix, VNode.prefixOf]
    cases hwf with
    | full _ _ _ _ h16 hlen63 hnib hcount hch =>
      refine WF.full pre _ ch tv h16 (by simp at hlen63 ⊢; omega) ?_ hcount ?_
      · intro x hx
        rcases List.mem_append.mp hx with hx | hx
        · exact hknib x hx
        · rcases List.mem_cons.mp hx with rfl | hx
          · exact hj
          · exact hnib x hx
      · intro i hi
        have := hch i hi
        have heq : (pre ++ fkey ++ [j]) ++ k ++ [i] = pre ++ (fkey ++ j :: k) ++ [i] := by
          simp
        rw [← heq]
        exact this
  | .withDeletedKeys inner dk, hwf => by
    cases hwf with
    | wdk _ _ _ hinner hdk =>
      have hpre' : ∀ q : Bytes, q.take (pre ++ fkey ++ [j]).length = pre ++ fkey ++ [j] →
          q.take pre.length = pre := by
        intro q hq
        have h1 : pre.length ≤ (pre ++ fkey ++ [j]).length := by simp
        calc q.take pre.length = (q.take (pre ++ fkey ++ [j]).length).take pre.length := by
              rw [List.take_take, Nat.min_eq_left h1]
          _ = (pre ++ fkey ++ [j]).take pre.length := by rw [hq]
          _ = pre := by
              rw [List.append_assoc, List.take_left]
      simp only [prependToKey, VNode.replacePrefix, VNode.prefixOf]
      refine WF.wdk pre _ dk ?_ ?_
      · exact prepend_WF pre fkey j tv hkb hknib hj inner hinner
      · intro p hp
        obtain ⟨hfp, htk, hva⟩ := hdk p hp
        refine ⟨hfp, hpre' p.1 htk, ?_⟩
        have := valueAt_prepend inner fkey j tv p.1 pre.length
        rw [this]
        by_cases hc : prefixLenFn (fkey ++ [j]) (p.1.drop pre.length) = fkey.length + 1
        · rw [if_pos hc,
            show pre.length + (fkey.length + 1) = (pre ++ fkey ++ [j]).length from by
              simp]
          exact hva
        · rw [if_neg hc]

end LT

namespace LT

/-- `LastLivingChild` returns the index of a living child and flags whether
it is the only one. -/
theorem lastLivingChild_eq (ch : List VNode) (h1 : 1 ≤ livingCount ch) :
    ∃ j, j < ch.length ∧ isNilN (ch.getD j .nil) = false ∧
      lastLivingChild ch = (Int.ofNat j, decide (livingCount ch = 1)) := by
  obtain ⟨j, hj, hl, hfold⟩ := (llcFold ch 0 (-1, false)).2 h1
  refine ⟨j, hj, hl, ?_⟩
  rw [lastLivingChild, show ch.enum = ch.enumFrom 0 from rfl, hfold]
  simp

theorem living_unique (ch : List VNode) (hcount : livingCount ch = 1)
    {i j : Nat} (hi : i < ch.length) (hj : j < ch.length)
    (hli : isNilN (ch.getD i .nil) = false)
    (hlj : isNilN (ch.getD j .nil) = false) : i = j := by
  by_contra hne
  have := two_le_livingCount ch i j hne hi hj hli hlj
  omega

theorem only_living_getD_nil (ch : List VNode) (hcount : livingCount ch = 1)
    {j : Nat} (hj : j < ch.length) (hlj : isNilN (ch.getD j .nil) = false)
    {i : Nat} (hi : i < ch.length) (hne : i ≠ j) :
    ch.getD i .nil = .nil := by
  cases h : ch.getD i .nil
  case nil => rfl
  all_goals {
    exfalso
    exact hne (living_unique ch hcount hi hj (by rw [h]; rfl) hlj)
  }

/-- When the mutation leaves exactly one living, in-memory child, the
branch collapses into it, extending its prefix by the branch prefix and
the discriminating nibble. -/
theorem replaceChild_collapse (ctx : TrieCtx) (tv : Nat) (fkey : Bytes)
    (fch : List VNode) (newChild : VNode) (r : Nat) (ppp : Bytes) (j : Nat)
    (hj : j < (childrenReplace fch r newChild).length)
    (hlive : isNilN ((childrenReplace fch r newChild).getD j .nil) = false)
    (hisl : ((childrenReplace fch r newChild).getD j .nil).isLive = true)
    (hcount : livingCount (childrenReplace fch r newChild) = 1) :
    replaceChild ctx tv fkey fch newChild r ppp
      = .ok (prependToKey ((childrenReplace fch r newChild).getD j .nil) fkey j tv) := by
  obtain ⟨j', hj', hl', hllc⟩ :=
    lastLivingChild_eq (childrenReplace fch r newChild) (by omega)
  have hjj : j' = j :=
    living_unique (childrenReplace fch r newChild) hcount hj' hj hl' hlive
  rw [hjj] at hllc
  simp only [replaceChild]
  rw [hllc, decide_eq_true hcount]
  rcases hc : (childrenReplace fch r newChild).getD j .nil with
    _ | v | h | ⟨k, v, ver⟩ | ⟨k, ch, ver⟩ | ⟨h, b, ver⟩ | ⟨inner, dk⟩
  · rw [hc] at hlive
    simp [isNilN] at hlive
  · rw [hc] at hisl
    simp [VNode.isLive] at hisl
  · rw [hc] at hisl
    simp [VNode.isLive] at hisl
  · have hgc : (childrenReplace fch r newChild)[j]?.getD VNode.nil = VNode.leaf k v ver := by
      rw [← List.getD_eq_getElem?_getD]
      exact hc
    simp [Int.toNat_ofNat, hc, hgc, VNode.isLive]
  · have hgc : (childrenReplace fch r newChild)[j]?.getD VNode.nil = VNode.full k ch ver := by
      rw [← List.getD_eq_getElem?_getD]
      exact hc
    simp [Int.toNat_ofNat, hc, hgc, VNode.isLive]
  · rw [hc] at hisl
    simp [VNode.isLive] at hisl
  · have hgc : (childrenReplace fch r newChild)[j]?.getD VNode.nil
        = VNode.withDeletedKeys inner dk := by
      rw [← List.getD_eq_getElem?_getD]
      exact hc
    simp [Int.toNat_ofNat, hc, hgc, VNode.isLive]

/-- Collapsing a single-living-child branch preserves the addressed
values on full paths. -/
theorem collapse_valueAt (tv : Nat) (fkey : Bytes) (uc : List VNode) (j : Nat)
    (pre : Bytes) (hlenuc : uc.length = 16) (hj : j < 16)
    (hkb : pre.length + fkey.length ≤ 63)
    (hcount : livingCount uc = 1)
    (hlive : isNilN (uc.getD j .nil) = false)
    (path : Bytes) (hfp : IsFullPath path) :
    valueAt (prependToKey (uc.getD j .nil) fkey j tv) path pre.length
      = valueAt (.full fkey uc tv) path pre.length := by
  have hplen : path.length = 65 := hfp.len
  have hD : (path.drop pre.length).length = 65 - pre.length := by
    simp [hplen]
  have hfD : fkey.length < (path.drop pre.length).length := by omega
  simp only [prependToKey, valueAt]
  rw [valueAt_prepend]
  by_cases hc1 : prefixLenFn fkey (path.drop pre.length) = fkey.length
  · rw [if_pos hc1]
    have htk : fkey = (path.drop pre.length).take fkey.length :=
      (prefixLenFn_eq_length_iff _ _).mp hc1
    have hsucc : (path.drop pre.length).take (fkey.length + 1)
        = fkey ++ [path.getD (pre.length + fkey.length) 0] := by
      rw [take_succ_getD _ _ hfD, ← htk, getD_drop]
    by_cases hρ : path.getD (pre.length + fkey.length) 0 = j
    · have hcond : prefixLenFn (fkey ++ [j]) (path.drop pre.length) = fkey.length + 1 := by
        rw [show (fkey.length + 1 : Nat) = (fkey ++ [j]).length from by simp,
          prefixLenFn_eq_length_iff, show (fkey ++ [j]).length = fkey.length + 1 from by
            simp, hsucc, hρ]
      rw [if_pos hcond, valueAtChild_eq, hρ,
        show pre.length + (fkey.length + 1) = pre.length + fkey.length + 1 from by omega]
    · have hcond : ¬ prefixLenFn (fkey ++ [j]) (path.drop pre.length) = fkey.length + 1 := by
        intro hh
        rw [show (fkey.length + 1 : Nat) = (fkey ++ [j]).length from by simp,
          prefixLenFn_eq_length_iff, show (fkey ++ [j]).length = fkey.length + 1 from by
            simp, hsucc] at hh
        have h2 := List.append_cancel_left hh
        simp only [List.cons.injEq, and_true] at h2
        exact hρ h2.symm
      rw [if_neg hcond, valueAtChild_eq,
        only_living_getD_nil uc hcount (by omega) hlive
          (by rw [hlenuc]; exact hfp.nib (by omega)) ?hne]
      · rfl
      case hne => exact hρ
  · rw [if_neg hc1]
    have hcond : ¬ prefixLenFn (fkey ++ [j]) (path.drop pre.length) = fkey.length + 1 := by
      intro hh
      apply hc1
      rw [show (fkey.length + 1 : Nat) = (fkey ++ [j]).length from by simp,
        prefixLenFn_eq_length_iff] at hh
      rw [prefixLenFn_eq_length_iff]
      have := congrArg (List.take fkey.length) hh
      rw [List.take_left, List.take_take,
        Nat.min_eq_left (by simp : fkey.length ≤ (fkey ++ [j]).length)] at this
      exact this
    rw [if_neg hcond]

/-- `replaceChild` under the well-formedness invariant: it succeeds, keeps
the subtree well-formed (collapsing a lone survivor) and answers full-path
queries exactly as the uncollapsed branch would. -/
theorem replaceChild_spec (ctx : TrieCtx) (tv : Nat) (fkey : Bytes)
    (fch : List VNode) (newChild : VNode) (r : Nat) (ppp : Bytes) (pre : Bytes)
    (hlen : fch.length = 16)
    (hkb : pre.length + fkey.length ≤ 63) (hknib : ∀ x ∈ fkey, x < 16)
    (hWFi : ∀ i, i < 16 → WF (pre ++ fkey ++ [i]) ((childrenReplace fch r newChild).getD i .nil))
    (hcount : 1 ≤ livingCount (childrenReplace fch r newChild)) :
    ∃ n', replaceChild ctx tv fkey fch newChild r ppp = .ok n' ∧ WF pre n' ∧
      isNilN n' = false ∧
      ∀ path, IsFullPath path →
        valueAt n' path pre.length
          = valueAt (.full fkey (childrenReplace fch r newChild) tv) path pre.length := by
  have hlenuc : (childrenReplace fch r newChild).length = 16 := by
    rw [childrenReplace, List.length_set, hlen]
  obtain ⟨j, hj, hlive, hllc⟩ := lastLivingChild_eq (childrenReplace fch r newChild) hcount
  by_cases h1 : livingCount (childrenReplace fch r newChild) = 1
  · have hWFj : WF (pre ++ fkey ++ [j]) ((childrenReplace fch r newChild).getD j .nil) :=
      hWFi j (by omega)
    refine ⟨prependToKey ((childrenReplace fch r newChild).getD j .nil) fkey j tv,
      replaceChild_collapse ctx tv fkey fch newChild r ppp j hj hlive
        (WF_isLive hWFj) h1, ?_, ?_, ?_⟩
    · exact prepend_WF pre fkey j tv hkb hknib (by omega) _ hWFj
    · rw [prependToKey, isNilN_replacePrefix]
      exact hlive
    · intro path hfp
      exact collapse_valueAt tv fkey (childrenReplace fch r newChild) j pre hlenuc
        (by omega) hkb h1 hlive path hfp
  · refine ⟨.full fkey (childrenReplace fch r newChild) tv, ?_, ?_, by rfl, fun _ _ => rfl⟩
    · simp only [replaceChild]
      rw [hllc, decide_eq_false h1]
    · exact WF.full pre fkey (childrenReplace fch r newChild) tv hlenuc hkb hknib
        (by omega) hWFi

end LT

namespace LT

theorem getLast_getD (k : Bytes) (c : Nat) (h : k.getLast? = some c) :
    k ≠ [] ∧ k.getD (k.length - 1) 0 = c := by
  have hne : k ≠ [] := by
    intro he
    rw [he] at h
    simp at h
  refine ⟨hne, ?_⟩
  rw [List.getLast?_eq_getElem?] at h
  rw [List.getD_eq_getElem?_getD, h]
  rfl

/-- At a divergence, the common prefix is shorter than the node key, the
next positions differ, and everything before agrees. -/
theorem not_contained_facts (k D : Bytes) (hcont : ¬ prefixLenFn k D = k.length)
    (hlen : k.length ≤ D.length) :
    prefixLenFn D k < k.length ∧
      D.getD (prefixLenFn D k) 0 ≠ k.getD (prefixLenFn D k) 0 ∧
      D.take (prefixLenFn D k) = k.take (prefixLenFn D k) := by
  have hcomm : prefixLenFn k D = prefixLenFn D k := prefixLenFn_comm k D
  have hle : prefixLenFn D k ≤ k.length := prefixLenFn_le_right D k
  have hlt : prefixLenFn D k < k.length :=
    lt_of_le_of_ne hle (fun h => hcont (hcomm.trans h))
  exact ⟨hlt, prefixLenFn_mismatch D k (by omega) hlt, prefixLenFn_take D k⟩

theorem livingCount_two_set (ci ni : Nat) (x y : VNode) (hci : ci < 16) (hni : ni < 16)
    (hne : ni ≠ ci) (hx : isNilN x = false) (hy : isNilN y = false) :
    livingCount ((nilChildren.set ci x).set ni y) = 2 := by
  have hlen : nilChildren.length = 16 := by simp [nilChildren]
  have h1 := livingCount_set_eq nilChildren ci x (by omega)
  have h2 := livingCount_set_eq (nilChildren.set ci x) ni y
    (by rw [List.length_set]; omega)
  rw [nilChildren_getD, livingCount_nilChildren, hx] at h1
  rw [getD_set_ne nilChildren x (fun h => hne h.symm), nilChildren_getD, hy] at h2
  simp [isNilN] at h1 h2
  omega

/-- A leaf holding the tail of a full path is well-formed. -/
theorem WF_suffix_leaf (pre' : Bytes) (d : Nat) (path val : Bytes) (tv : Nat)
    (hfp : IsFullPath path) (hd : pre'.length = d) (hle : d ≤ 64)
    (hval : val ≠ deletedValue) :
    WF pre' (.leaf (path.drop d) val tv) := by
  have hplen := hfp.len
  refine WF.leaf pre' _ val tv (by simp [hplen]; omega) ?_ ?_ hval
  · intro i hi
    rw [getD_drop]
    refine hfp.nib ?_
    have : (path.drop d).length = 65 - d := by simp [hplen]
    omega
  · exact hfp.drop_getLast (by omega)

/-- Decomposing `l.drop d = k` at an interior position `m` of `k`. -/
theorem drop_eq_decomp (l k : Bytes) (d m : Nat) (hm : m < k.length)
    (hl : d + m < l.length) :
    l.drop d = k ↔ ((l.drop d).take m = k.take m ∧ l.getD (d + m) 0 = k.getD m 0 ∧
      l.drop (d + m + 1) = k.drop (m + 1)) := by
  constructor
  · intro h
    refine ⟨by rw [h], ?_, ?_⟩
    · rw [← getD_drop, h]
    · rw [show d + m + 1 = d + (m + 1) from by omega, ← drop_drop_add, h]
  · rintro ⟨h1, h2, h3⟩
    have hld : m < (l.drop d).length := by
      rw [List.length_drop]
      omega
    calc l.drop d
        = (l.drop d).take m ++ (l.drop d).getD m 0 :: (l.drop d).drop (m + 1) :=
          list_decomp _ m hld
      _ = k.take m ++ k.getD m 0 :: k.drop (m + 1) := by
          rw [h1, getD_drop, h2, drop_drop_add,
            show d + (m + 1) = d + m + 1 from by omega, h3]
      _ = k := (list_decomp k m hm).symm

theorem singleton_prefixLen (c : Nat) (l : Bytes) (hl : 0 < l.length) :
    prefixLenFn [c] l = 1 ↔ l.getD 0 0 = c := by
  cases l with
  | nil => simp at hl
  | cons a l =>
    simp only [prefixLenFn, List.getD_cons_zero]
    by_cases h : c = a
    · rw [if_pos h]
      simp [h.symm]
    · rw [if_neg h]
      constructor
      · intro hh
        simp at hh
      · intro hh
        exact absurd hh.symm h

/-- Shared analysis of the two grafting arms of `AddSibling`: the result
branch is well-formed, holds `val` at `path`, and elsewhere answers as the
original node (phrased through its prefix re-expansion). -/
theorem graft_spec (tv : Nat) (pre path val k : Bytes) (cur : VNode) (m : Nat)
    (hm : prefixLenFn (path.drop pre.length) k = m)
    (hfp : IsFullPath path) (hpre : path.take pre.length = pre)
    (hval : val ≠ deletedValue)
    (hmlt : m < k.length)
    (hdm : pre.length + m < 64)
    (hci : k.getD m 0 < 16)
    (hcurWF : WF (pre ++ (path.drop pre.length).take m ++ [k.getD m 0]) cur)
    (hcurnil : isNilN cur = false) :
    WF pre (.full ((path.drop pre.length).take m)
      ((nilChildren.set (k.getD m 0) cur).set ((path.drop pre.length).getD m 0)
        (.leaf ((path.drop pre.length).drop (m + 1)) val tv)) tv) ∧
    valueAt (.full ((path.drop pre.length).take m)
      ((nilChildren.set (k.getD m 0) cur).set ((path.drop pre.length).getD m 0)
        (.leaf ((path.drop pre.length).drop (m + 1)) val tv)) tv) path pre.length
      = some val ∧
    (∀ q, IsFullPath q → q.take pre.length = pre → q ≠ path →
      valueAt (.full ((path.drop pre.length).take m)
        ((nilChildren.set (k.getD m 0) cur).set ((path.drop pre.length).getD m 0)
          (.leaf ((path.drop pre.length).drop (m + 1)) val tv)) tv) q pre.length
        = valueAt (cur.replacePrefix ((path.drop pre.length).take m
            ++ k.getD m 0 :: cur.prefixOf) tv) q pre.length) := by
  have hplen : path.length = 65 := hfp.len
  have hDlen : (path.drop pre.length).length = 65 - pre.length := by
    rw [List.length_drop, hplen]
  have hmD : m < (path.drop pre.length).length := by omega
  have hmtake : (path.drop pre.length).take m = k.take m := by
    rw [← hm]
    exact prefixLenFn_take _ k
  have hmis : (path.drop pre.length).getD m 0 ≠ k.getD m 0 := by
    rw [← hm]
    exact prefixLenFn_mismatch _ k (by omega) (by omega)
  have hni : (path.drop pre.length).getD m 0 < 16 := by
    rw [getD_drop]
    exact hfp.nib (by omega)
  have hch2len : ((nilChildren.set (k.getD m 0) cur).set ((path.drop pre.length).getD m 0)
      (VNode.leaf ((path.drop pre.length).drop (m + 1)) val tv)).length = 16 := by
    rw [List.length_set, List.length_set]
    simp [nilChildren]
  have hCoff : ((path.drop pre.length).take m).length = m := by
    rw [List.length_take]
    omega
  have hgetni : ((nilChildren.set (k.getD m 0) cur).set ((path.drop pre.length).getD m 0)
      (VNode.leaf ((path.drop pre.length).drop (m + 1)) val tv)).getD
      ((path.drop pre.length).getD m 0) .nil
      = VNode.leaf ((path.drop pre.length).drop (m + 1)) val tv := by
    apply getD_set_self
    rw [List.length_set, show nilChildren.length = 16 from by simp [nilChildren]]
    omega
  have hgetci : ((nilChildren.set (k.getD m 0) cur).set ((path.drop pre.length).getD m 0)
      (VNode.leaf ((path.drop pre.length).drop (m + 1)) val tv)).getD (k.getD m 0) .nil
      = cur := by
    rw [getD_set_ne _ _ hmis]
    apply getD_set_self
    rw [show nilChildren.length = 16 from by simp [nilChildren]]
    omega
  have hother : ∀ i, i ≠ (path.drop pre.length).getD m 0 → i ≠ k.getD m 0 →
      ((nilChildren.set (k.getD m 0) cur).set ((path.drop pre.length).getD m 0)
        (VNode.leaf ((path.drop pre.length).drop (m + 1)) val tv)).getD i .nil
      = .nil := by
    intro i h1 h2
    rw [getD_set_ne _ _ (fun h => h1 h.symm), getD_set_ne _ _ (fun h => h2 h.symm)]
    exact nilChildren_getD i
  refine ⟨?_, ?_, ?_⟩
  · -- well-formedness of the grafted branch
    refine WF.full pre _ _ tv hch2len (by omega) ?_ ?_ ?_
    · apply take_all_lt
      intro i hi
      rw [getD_drop]
      exact hfp.nib (by omega)
    · rw [livingCount_two_set (k.getD m 0) ((path.drop pre.length).getD m 0)
        cur (VNode.leaf ((path.drop pre.length).drop (m + 1)) val tv)
        hci hni hmis hcurnil rfl]
    · intro i hi
      by_cases h1 : i = (path.drop pre.length).getD m 0
      · rw [h1, hgetni, drop_drop_add]
        refine WF_suffix_leaf _ (pre.length + (m + 1)) path val tv hfp ?_ (by omega) hval
        rw [List.length_append, List.length_append, hCoff, List.length_cons,
          List.length_nil]
        omega
      · by_cases h2 : i = k.getD m 0
        · rw [h2, hgetci]
          exact h2 ▸ hcurWF
        · rw [hother i h1 h2]
          exact WF.nil _
  · -- the grafted value is found
    simp only [valueAt]
    rw [hCoff,
      if_pos (prefixLenFn_take_self (path.drop pre.length) m (by omega)),
      valueAtChild_eq, ← getD_drop, hgetni]
    simp only [valueAt]
    rw [drop_drop_add,
      if_pos (show path.drop (pre.length + m + 1)
        = path.drop (pre.length + (m + 1)) from rfl)]
  · -- frame: all other full paths are answered by the re-expanded original
    intro q hq hqp hqn
    have hqlen : q.length = 65 := hq.len
    rw [valueAt_prepend]
    simp only [valueAt]
    rw [hCoff]
    have hsplit : prefixLenFn ((path.drop pre.length).take m ++ [k.getD m 0]) (q.drop pre.length)
        = ((path.drop pre.length).take m).length + [k.getD m 0].length ↔
        (prefixLenFn ((path.drop pre.length).take m) (q.drop pre.length)
            = ((path.drop pre.length).take m).length ∧
          prefixLenFn [k.getD m 0] ((q.drop pre.length).drop ((path.drop pre.length).take m).length)
            = [k.getD m 0].length) :=
      prefixLen_append_iff _ _ _
    rw [hCoff] at hsplit
    simp only [List.length_cons, List.length_nil, Nat.zero_add] at hsplit
    rw [drop_drop_add] at hsplit
    have hqd : 0 < (q.drop (pre.length + m)).length := by
      rw [List.length_drop]
      omega
    by_cases h1 : prefixLenFn ((path.drop pre.length).take m) (q.drop pre.length) = m
    · rw [if_pos h1]
      by_cases hρ : q.getD (pre.length + m) 0 = k.getD m 0
      · have hcond : prefixLenFn ((path.drop pre.length).take m ++ [k.getD m 0])
            (q.drop pre.length) = m + 1 :=
          hsplit.mpr ⟨h1, (singleton_prefixLen _ _ hqd).mpr (by rw [getD_drop]; exact hρ)⟩
        rw [if_pos hcond, valueAtChild_eq, hρ, hgetci,
          show (pre.length + (m + 1) : Nat) = pre.length + m + 1 from by omega]
      · have hcond : ¬ prefixLenFn ((path.drop pre.length).take m ++ [k.getD m 0])
            (q.drop pre.length) = m + 1 := by
          intro hh
          have h2 := (hsplit.mp hh).2
          rw [singleton_prefixLen _ _ hqd, getD_drop] at h2
          exact hρ h2
        rw [if_neg hcond, valueAtChild_eq]
        by_cases hρni : q.getD (pre.length + m) 0 = (path.drop pre.length).getD m 0
        · rw [hρni, hgetni]
          simp only [valueAt]
          rw [if_neg]
          intro he
          apply hqn
          refine eq_of_parts pre.length m (by omega) (by omega) (hqp.trans hpre.symm) ?_ ?_ ?_
          · have h1' : prefixLenFn ((path.drop pre.length).take m) (q.drop pre.length)
                = ((path.drop pre.length).take m).length := by
              rw [hCoff]
              exact h1
            have h2 := (prefixLenFn_eq_length_iff _ _).mp h1'
            rw [hCoff] at h2
            exact h2.symm
          · rw [hρni, getD_drop]
          · rw [he, drop_drop_add,
              show (pre.length + (m + 1) : Nat) = pre.length + m + 1 from by omega]
        · rw [hother _ hρni hρ]
          rfl
    · rw [if_neg h1, if_neg (fun hh => h1 (hsplit.mp hh).1)]

/-- `AddSibling` under the invariant: grafting a new leaf next to a node
whose prefix diverges from the search path yields a well-formed, non-`Nil`
node holding `val` at `path` and everything else unchanged. -/
theorem addSibling_spec (tv : Nat) : (n : VNode) → (pre path val : Bytes) →
    WF pre n → n.prefixContainedIn path pre.length = false →
    IsFullPath path → path.take pre.length = pre → pre.length ≤ 64 →
    val ≠ deletedValue →
    WF pre (n.addSibling (path.drop pre.length) path val tv) ∧
    isNilN (n.addSibling (path.drop pre.length) path val tv) = false ∧
    valueAt (n.addSibling (path.drop pre.length) path val tv) path pre.length = some val ∧
    (∀ q, IsFullPath q → q.take pre.length = pre → q ≠ path →
      valueAt (n.addSibling (path.drop pre.length) path val tv) q pre.length
        = valueAt n q pre.length)
  | .value v, pre, path, val, hwf, _, _, _, _, _ => by cases hwf
  | .hashRef h, pre, path, val, hwf, _, _, _, _, _ => by cases hwf
  | .stored h b v, pre, path, val, hwf, _, _, _, _, _ => by cases hwf
  | .nil, pre, path, val, hwf, hcont, hfp, hpre, hd64, hval => by
    refine ⟨WF_suffix_leaf pre pre.length path val tv hfp rfl hd64 hval, rfl, ?_, ?_⟩
    · simp [VNode.addSibling, valueAt]
    · intro q hq hqp hqn
      simp only [VNode.addSibling, valueAt]
      rw [if_neg]
      intro he
      exact hqn (eq_of_take_drop pre.length (hqp.trans hpre.symm) he)
  | .leaf k v ver, pre, path, val, hwf, hcont, hfp, hpre, hd64, hval => by
    cases hwf with
    | leaf _ _ _ _ h65 hnib hlast hv =>
      have hplen : path.length = 65 := hfp.len
      have hcont' : ¬ prefixLenFn k (path.drop pre.length) = k.length := by
        simpa [VNode.prefixContainedIn] using hcont
      have hDlen : (path.drop pre.length).length = k.length := by
        rw [List.length_drop]
        omega
      obtain ⟨hmlt, hmis, hmtake⟩ :=
        not_contained_facts k (path.drop pre.length) hcont' (by omega)
      obtain ⟨hk0, hklast⟩ := getLast_getD k 16 hlast
      have hm1 : prefixLenFn (path.drop pre.length) k + 1 < k.length := by
        rcases Nat.lt_or_ge (prefixLenFn (path.drop pre.length) k + 1) k.length with h | h
        · exact h
        · exfalso
          apply hmis
          rw [show prefixLenFn (path.drop pre.length) k = k.length - 1 from by omega,
            hklast, getD_drop, show pre.length + (k.length - 1) = 64 from by omega]
          exact hfp.2.2
      have hdm : pre.length + prefixLenFn (path.drop pre.length) k < 64 := by omega
      have hci : k.getD (prefixLenFn (path.drop pre.length) k) 0 < 16 := hnib _ hm1
      have hcurWF : WF (pre ++ (path.drop pre.length).take (prefixLenFn (path.drop pre.length) k)
          ++ [k.getD (prefixLenFn (path.drop pre.length) k) 0])
          (VNode.leaf (k.drop (prefixLenFn (path.drop pre.length) k + 1)) v tv) := by
        refine WF.leaf _ _ v tv ?_ ?_ ?_ hv
        · simp only [List.length_append, List.length_take, List.length_cons,
            List.length_nil, List.length_drop]
          omega
        · intro i hi
          rw [List.length_drop] at hi
          rw [getD_drop]
          exact hnib _ (by omega)
        · rw [List.getLast?_drop, if_neg (by omega)]
          exact hlast
      obtain ⟨hWFr, hvalr, hframe⟩ :=
        graft_spec tv pre path val k
          (VNode.leaf (k.drop (prefixLenFn (path.drop pre.length) k + 1)) v tv)
          (prefixLenFn (path.drop pre.length) k) rfl hfp hpre hval hmlt hdm hci hcurWF rfl
      refine ⟨hWFr, rfl, hvalr, ?_⟩
      intro q hq hqp hqn
      simp only [VNode.addSibling]
      rw [hframe q hq hqp hqn]
      simp only [VNode.replacePrefix, VNode.prefixOf]
      have hkey : (path.drop pre.length).take (prefixLenFn (path.drop pre.length) k)
          ++ k.getD (prefixLenFn (path.drop pre.length) k) 0
            :: k.drop (prefixLenFn (path.drop pre.length) k + 1) = k := by
        rw [hmtake]
        exact (list_decomp k _ hmlt).symm
      rw [hkey]
      simp only [valueAt]
  | .full k ch ver, pre, path, val, hwf, hcont, hfp, hpre, hd64, hval => by
    cases hwf with
    | full _ _ _ _ h16 hlen63 hknibm hcount hch =>
      have hplen : path.length = 65 := hfp.len
      have hcont' : ¬ prefixLenFn k (path.drop pre.length) = k.length := by
        simpa [VNode.prefixContainedIn] using hcont
      have hDlen : (path.drop pre.length).length = 65 - pre.length := by
        rw [List.length_drop, hplen]
      obtain ⟨hmlt, hmis, hmtake⟩ :=
        not_contained_facts k (path.drop pre.length) hcont' (by omega)
      have hdm : pre.length + prefixLenFn (path.drop pre.length) k < 64 := by omega
      have hci : k.getD (prefixLenFn (path.drop pre.length) k) 0 < 16 :=
        hknibm _ (getD_mem k _ (by omega))
      have hcurWF : WF (pre ++ (path.drop pre.length).take (prefixLenFn (path.drop pre.length) k)
          ++ [k.getD (prefixLenFn (path.drop pre.length) k) 0])
          (VNode.full (k.drop (prefixLenFn (path.drop pre.length) k + 1)) ch tv) := by
        refine WF.full _ _ ch tv h16 ?_ ?_ hcount ?_
        · simp only [List.length_append, List.length_take, List.length_cons,
            List.length_nil, List.length_drop]
          omega
        · intro x hx
          exact hknibm x (List.drop_subset _ k hx)
        · intro i hi
          have hthis := hch i hi
          have heq : (pre ++ (path.drop pre.length).take (prefixLenFn (path.drop pre.length) k)
              ++ [k.getD (prefixLenFn (path.drop pre.length) k) 0])
              ++ k.drop (prefixLenFn (path.drop pre.length) k + 1) ++ [i]
              = pre ++ k ++ [i] := by
            rw [hmtake]
            conv_rhs => rw [show (k : Bytes)
              = k.take (prefixLenFn (path.drop pre.length) k)
                ++ k.getD (prefixLenFn (path.drop pre.length) k) 0
                  :: k.drop (prefixLenFn (path.drop pre.length) k + 1) from
                list_decomp k _ hmlt]
            simp
          rw [heq]
          exact hthis
      obtain ⟨hWFr, hvalr, hframe⟩ :=
        graft_spec tv pre path val k
          (VNode.full (k.drop (prefixLenFn (path.drop pre.length) k + 1)) ch tv)
          (prefixLenFn (path.drop pre.length) k) rfl hfp hpre hval hmlt hdm hci hcurWF rfl
      refine ⟨hWFr, rfl, hvalr, ?_⟩
      intro q hq hqp hqn
      simp only [VNode.addSibling]
      rw [hframe q hq hqp hqn]
      simp only [VNode.replacePrefix, VNode.prefixOf]
      have hkey : (path.drop pre.length).take (prefixLenFn (path.drop pre.length) k)
          ++ k.getD (prefixLenFn (path.drop pre.length) k) 0
            :: k.drop (prefixLenFn (path.drop pre.length) k + 1) = k := by
        rw [hmtake]
        exact (list_decomp k _ hmlt).symm
      rw [hkey]
      simp only [valueAt]
  | .withDeletedKeys inner dk, pre, path, val, hwf, hcont, hfp, hpre, hd64, hval => by
    cases hwf with
    | wdk _ _ _ hinner hdk =>
      have hcont2 : inner.prefixContainedIn path pre.length = false := by
        simpa [VNode.prefixContainedIn] using hcont
      obtain ⟨hWFi, hnili, hvali, hframei⟩ :=
        addSibling_spec tv inner pre path val hinner hcont2 hfp hpre hd64 hval
      simp only [VNode.addSibling]
      by_cases hck : dk.containsKey path
      · rw [if_neg (not_not_intro hck)]
        by_cases hrem : (dk.removeKey path).length = 0
        · rw [if_pos hrem]
          refine ⟨hWFi, hnili, hvali, ?_⟩
          intro q hq hqp hqn
          rw [hframei q hq hqp hqn]
          simp only [valueAt]
        · rw [if_neg hrem]
          refine ⟨?_, rfl, ?_, ?_⟩
          · refine WF.wdk pre _ _ hWFi ?_
            intro p hp
            rw [KeySet.mem_removeKey] at hp
            obtain ⟨hfp', htk', hva'⟩ := hdk p hp.1
            refine ⟨hfp', htk', ?_⟩
            rw [hframei p.1 hfp' htk' hp.2]
            exact hva'
          · simp only [valueAt]
            exact hvali
          · intro q hq hqp hqn
            simp only [valueAt]
            exact hframei q hq hqp hqn
      · rw [if_pos hck]
        refine ⟨?_, rfl, ?_, ?_⟩
        · refine WF.wdk pre _ _ hWFi ?_
          intro p hp
          obtain ⟨hfp', htk', hva'⟩ := hdk p hp
          have hne := containsKey_false_ne (by simpa using hck) p hp
          refine ⟨hfp', htk', ?_⟩
          rw [hframei p.1 hfp' htk' hne]
          exact hva'
        · simp only [valueAt]
          exact hvali
        · intro q hq hqp hqn
          simp only [valueAt]
          exact hframei q hq hqp hqn

end LT

namespace LT

/-- `get` computes exactly the abstract map `valueAt` on well-formed
in-memory subtrees. -/
theorem getRec_eq_valueAt (ctx : TrieCtx) (tv : Nat) :
    (fuel : Nat) → (n : VNode) → (pre path : Bytes) →
    WF pre n → IsFullPath path → nodeSize n ≤ fuel →
    getRec ctx tv fuel n path pre.length
      = match valueAt n path pre.length with
        | some v => .found v
        | none => .notFound
  | 0, n, pre, path, _, _, hfuel => by
    have := one_le_nodeSize n
    omega
  | fuel + 1, n, pre, path, hwf, hfp, hfuel => by
    cases hwf with
    | nil =>
      simp [getRec, VNode.isLive, VNode.prefixContainedIn, valueAt]
    | leaf _ key v ver h65 hnib hlast hv =>
      cases hcont : (VNode.leaf key v ver).prefixContainedIn path pre.length with
      | false =>
        rw [valueAt_none_of_not_contained _ _ _ hcont]
        simp [getRec, hcont, VNode.isLive]
      | true =>
        have hdroplen : (path.drop pre.length).length = key.length := by
          rw [List.length_drop, hfp.len]
          omega
        have heq : path.drop pre.length = key :=
          (contained_iff_drop_eq hdroplen).mp
            (by simpa [VNode.prefixContainedIn] using hcont)
        obtain ⟨g, rfl⟩ : ∃ g, fuel = g + 1 := by
          have h2 : nodeSize (VNode.leaf key v ver) = 2 := rfl
          exact ⟨fuel - 1, by omega⟩
        simp only [getRec, hcont, VNode.isLive, Bool.not_true, Bool.and_false,
          Bool.false_and, Bool.true_and, if_false, Bool.false_eq_true]
        rw [if_neg hv]
        simp [valueAt, heq]
    | full _ key ch ver h16 hlen63 hknib hcount hch =>
      cases hcont : (VNode.full key ch ver).prefixContainedIn path pre.length with
      | false =>
        rw [valueAt_none_of_not_contained _ _ _ hcont]
        simp [getRec, hcont, VNode.isLive]
      | true =>
        have hcp : prefixLenFn key (path.drop pre.length) = key.length := by
          simpa [VNode.prefixContainedIn] using hcont
        have hcr16 : path.getD (pre.length + key.length) 0 < 16 :=
          hfp.nib (by omega)
        have hWFc := hch _ hcr16
        have hfuel' : nodeSize (ch.getD (path.getD (pre.length + key.length) 0) .nil) ≤ fuel := by
          have h1 := nodeSize_getD_le ch (path.getD (pre.length + key.length) 0)
          have h2 : nodeSize (VNode.full key ch ver) = 1 + nodeSizeList ch := rfl
          omega
        have IH := getRec_eq_valueAt ctx tv fuel
          (ch.getD (path.getD (pre.length + key.length) 0) .nil)
          (pre ++ key ++ [path.getD (pre.length + key.length) 0]) path hWFc hfp hfuel'
        rw [show (pre ++ key ++ [path.getD (pre.length + key.length) 0]).length
          = pre.length + key.length + 1 from by simp; omega] at IH
        simp only [getRec, hcont, Bool.not_true, Bool.and_false, if_false,
          Bool.false_eq_true, VNode.isLive, Bool.true_and]
        rw [IH]
        simp only [valueAt, if_pos hcp, valueAtChild_eq]
        cases valueAt (ch.getD (path.getD (pre.length + key.length) 0) .nil) path
          (pre.length + key.length + 1) <;> rfl
    | wdk _ inner dk hinner hdk =>
      cases hcont : (VNode.withDeletedKeys inner dk).prefixContainedIn path pre.length with
      | false =>
        rw [valueAt_none_of_not_contained _ _ _ hcont]
        simp [getRec, hcont, VNode.isLive]
      | true =>
        have hfuel' : nodeSize inner ≤ fuel := by
          have h2 : nodeSize (VNode.withDeletedKeys inner dk) = 1 + nodeSize inner := rfl
          omega
        have IH := getRec_eq_valueAt ctx tv fuel inner pre path hinner hfp hfuel'
        by_cases hck : dk.containsKey path
        · obtain ⟨vv, hvv⟩ := (KeySet.containsKey_iff dk path).mp hck
          have hnone := (hdk (path, vv) hvv).2.2
          simp only [getRec, hcont, Bool.not_true, Bool.and_false, if_false,
            Bool.false_eq_true, VNode.isLive, Bool.true_and]
          rw [if_pos hck]
          simp only [valueAt]
          rw [hnone]
        · simp only [getRec, hcont, Bool.not_true, Bool.and_false, if_false,
            Bool.false_eq_true, VNode.isLive, Bool.true_and]
          rw [if_neg hck, IH]
          simp only [valueAt]
          cases valueAt inner path pre.length <;> rfl

theorem take_extend (pre key q : Bytes) (c : Nat)
    (hq : q.take pre.length = pre)
    (hcq : prefixLenFn key (q.drop pre.length) = key.length)
    (hc : q.getD (pre.length + key.length) 0 = c)
    (hlen : pre.length + key.length < q.length) :
    q.take (pre.length + key.length + 1) = pre ++ key ++ [c] := by
  rw [take_succ_getD q _ hlen, List.take_add, hq, hc,
    ← (prefixLenFn_eq_length_iff key _).mp hcq]

/-- What `update` guarantees on a well-formed subtree: it cannot fail, an
`unchanged` verdict means the value was already there, and an `updated`
subtree is well-formed, non-`Nil`, holds the value, and agrees with the old
subtree on every other full path below the prefix. -/
def UpdateOK (n : VNode) (pre path val : Bytes) : UpdateResult → Prop
  | .failed _ => False
  | .unchanged => valueAt n path pre.length = some val
  | .updated n' => WF pre n' ∧ isNilN n' = false ∧
      valueAt n' path pre.length = some val ∧
      ∀ q, IsFullPath q → q.take pre.length = pre → q ≠ path →
        valueAt n' q pre.length = valueAt n q pre.length

theorem updateRec_spec (ctx : TrieCtx) (tv : Nat) :
    (fuel : Nat) → (n : VNode) → (pre path val : Bytes) →
    WF pre n → IsFullPath path → path.take pre.length = pre → pre.length ≤ 64 →
    val ≠ deletedValue → nodeSize n ≤ fuel →
    UpdateOK n pre path val (updateRec ctx tv fuel n path pre.length val)
  | 0, n, pre, path, val, _, _, _, _, _, hfuel => by
    have := one_le_nodeSize n
    omega
  | fuel + 1, n, pre, path, val, hwf, hfp, hpre, hd64, hval, hfuel => by
    cases hcontb : n.prefixContainedIn path pre.length with
    | false =>
      have hred : updateRec ctx tv (fuel + 1) n path pre.length val
          = .updated (n.addSibling (path.drop pre.length) path val tv) := by
        simp only [updateRec, hcontb, WF_isLive hwf, Bool.not_false, Bool.true_and, if_true]
      rw [hred]
      obtain ⟨h1, h2, h3, h4⟩ := addSibling_spec tv n pre path val hwf hcontb hfp hpre hd64 hval
      exact ⟨h1, h2, h3, h4⟩
    | true =>
      cases hwf with
      | nil => simp [VNode.prefixContainedIn] at hcontb
      | leaf _ key v ver h65 hnib hlast hv =>
        have heq : path.drop pre.length = key :=
          (contained_iff_drop_eq (by rw [List.length_drop, hfp.len]; omega)).mp
            (by simpa [VNode.prefixContainedIn] using hcontb)
        simp only [updateRec, hcontb, Bool.not_true, Bool.and_false, if_false,
          Bool.false_eq_true, VNode.isLive, Bool.true_and]
        by_cases hvv : v = val
        · rw [if_pos hvv]
          show valueAt (VNode.leaf key v ver) path pre.length = some val
          simp only [valueAt]
          rw [if_pos heq, hvv]
        · rw [if_neg hvv]
          refine ⟨WF.leaf pre key val tv h65 hnib hlast hval, rfl, ?_, ?_⟩
          · simp only [valueAt]
            rw [if_pos heq]
          · intro q hq hqp hqn
            have hne : ¬ (q.drop pre.length = key) := by
              intro he
              exact hqn (eq_of_take_drop pre.length (hqp.trans hpre.symm)
                (he.trans heq.symm))
            simp only [valueAt]
            rw [if_neg hne, if_neg hne]
      | full _ key ch ver h16 hlen63 hknib hcount hch =>
        have hcp : prefixLenFn key (path.drop pre.length) = key.length := by
          simpa [VNode.prefixContainedIn] using hcontb
        have hcr16 : path.getD (pre.length + key.length) 0 < 16 := hfp.nib (by omega)
        have hWFc := hch _ hcr16
        have hlen' : (pre ++ key ++ [path.getD (pre.length + key.length) 0]).length
            = pre.length + key.length + 1 := by
          simp
          omega
        have hpre' : path.take (pre.length + key.length + 1)
            = pre ++ key ++ [path.getD (pre.length + key.length) 0] :=
          take_extend pre key path _ hpre hcp rfl (by rw [hfp.len]; omega)
        have hfuel' : nodeSize (ch.getD (path.getD (pre.length + key.length) 0) .nil) ≤ fuel := by
          have h1 := nodeSize_getD_le ch (path.getD (pre.length + key.length) 0)
          have h2 : nodeSize (VNode.full key ch ver) = 1 + nodeSizeList ch := rfl
          omega
        have IH := updateRec_spec ctx tv fuel
          (ch.getD (path.getD (pre.length + key.length) 0) .nil)
          (pre ++ key ++ [path.getD (pre.length + key.length) 0]) path val hWFc hfp
          (by rw [hlen']; exact hpre') (by rw [hlen']; omega) hval hfuel'
        rw [hlen'] at IH
        simp only [updateRec, hcontb, Bool.not_true, Bool.and_false, if_false,
          Bool.false_eq_true, VNode.isLive, Bool.true_and]
        cases hres : updateRec ctx tv fuel
          (ch.getD (path.getD (pre.length + key.length) 0) .nil) path
          (pre.length + key.length + 1) val with
        | failed e =>
          rw [hres] at IH
          exact IH
        | unchanged =>
          rw [hres] at IH
          have IH2 : valueAt (ch.getD (path.getD (pre.length + key.length) 0) .nil) path
              (pre ++ key ++ [path.getD (pre.length + key.length) 0]).length = some val := IH
          rw [hlen'] at IH2
          show valueAt (VNode.full key ch ver) path pre.length = some val
          simp only [valueAt]
          rw [if_pos hcp, valueAtChild_eq]
          exact IH2
        | updated afterChild =>
          rw [hres] at IH
          obtain ⟨hWFa, hnila, hvala, hframea⟩ := IH
          rw [hlen'] at hvala hframea
          have hWFi : ∀ i, i < 16 →
              WF (pre ++ key ++ [i])
                ((childrenReplace ch (path.getD (pre.length + key.length) 0) afterChild).getD i .nil) := by
            intro i hi
            by_cases he : i = path.getD (pre.length + key.length) 0
            · rw [he, childrenReplace, getD_set_self _ _ _ (by omega)]
              exact hWFa
            · rw [childrenReplace, getD_set_ne _ _ (fun h => he h.symm)]
              exact hch i hi
          have hcnt : 1 ≤ livingCount
              (childrenReplace ch (path.getD (pre.length + key.length) 0) afterChild) :=
            one_le_livingCount_of_living
              (childrenReplace ch (path.getD (pre.length + key.length) 0) afterChild)
              (path.getD (pre.length + key.length) 0)
              (by rw [childrenReplace, List.length_set]; omega)
              (by rw [childrenReplace,
                  getD_set_self ch (path.getD (pre.length + key.length) 0) afterChild
                    (by omega)]
                  exact hnila)
          obtain ⟨n'', hok, hWFn, hniln, hvn⟩ := replaceChild_spec ctx tv key ch afterChild
            (path.getD (pre.length + key.length) 0) (path.take pre.length) pre h16 hlen63
            hknib hWFi hcnt
          simp only [hok]
          refine ⟨hWFn, hniln, ?_, ?_⟩
          · rw [hvn path hfp]
            simp only [valueAt]
            rw [if_pos hcp, valueAtChild_eq, childrenReplace,
              getD_set_self _ _ _ (by omega)]
            exact hvala
          · intro q hq hqp hqn
            rw [hvn q hq]
            simp only [valueAt]
            by_cases hcq : prefixLenFn key (q.drop pre.length) = key.length
            · rw [if_pos hcq, if_pos hcq, valueAtChild_eq, valueAtChild_eq]
              by_cases hrq : q.getD (pre.length + key.length) 0
                  = path.getD (pre.length + key.length) 0
              · rw [hrq, childrenReplace, getD_set_self _ _ _ (by omega)]
                have hqpre' : q.take (pre.length + key.length + 1)
                    = pre ++ key ++ [path.getD (pre.length + key.length) 0] :=
                  take_extend pre key q _ hqp hcq hrq (by rw [hq.len]; omega)
                exact hframea q hq hqpre' hqn
              · rw [childrenReplace, getD_set_ne _ _ (fun h => hrq h.symm)]
            · rw [if_neg hcq, if_neg hcq]
      | wdk _ inner dk hinner hdk =>
        have hfuel' : nodeSize inner ≤ fuel := by
          have h2 : nodeSize (VNode.withDeletedKeys inner dk) = 1 + nodeSize inner := rfl
          omega
        have IH := updateRec_spec ctx tv fuel inner pre path val hinner hfp hpre hd64 hval hfuel'
        simp only [updateRec, hcontb, Bool.not_true, Bool.and_false, if_false,
          Bool.false_eq_true, VNode.isLive, Bool.true_and]
        cases hres : updateRec ctx tv fuel inner path pre.length val with
        | failed e =>
          rw [hres] at IH
          exact IH
        | unchanged =>
          rw [hres] at IH
          show valueAt (VNode.withDeletedKeys inner dk) path pre.length = some val
          simp only [valueAt]
          exact IH
        | updated after =>
          rw [hres] at IH
          obtain ⟨hWFa, hnila, hvala, hframea⟩ := IH
          show UpdateOK (inner.withDeletedKeys dk) pre path val
            (if dk.containsKey path then
              UpdateResult.updated (VNode.withDeletedKeys after (dk.removeKey path))
            else UpdateResult.updated (VNode.withDeletedKeys after dk))
          by_cases hck : dk.containsKey path
          · rw [if_pos hck]
            refine ⟨?_, rfl, ?_, ?_⟩
            · refine WF.wdk pre _ _ hWFa ?_
              intro p hp
              rw [KeySet.mem_removeKey] at hp
              obtain ⟨hfp', htk', hva'⟩ := hdk p hp.1
              refine ⟨hfp', htk', ?_⟩
              rw [hframea p.1 hfp' htk' hp.2]
              exact hva'
            · simp only [valueAt]
              exact hvala
            · intro q hq hqp hqn
              simp only [valueAt]
              exact hframea q hq hqp hqn
          · rw [if_neg hck]
            refine ⟨?_, rfl, ?_, ?_⟩
            · refine WF.wdk pre _ _ hWFa ?_
              intro p hp
              obtain ⟨hfp', htk', hva'⟩ := hdk p hp
              have hne := containsKey_false_ne (by simpa using hck) p hp
              refine ⟨hfp', htk', ?_⟩
              rw [hframea p.1 hfp' htk' hne]
              exact hva'
            · simp only [valueAt]
              exact hvala
            · intro q hq hqp hqn
              simp only [valueAt]
              exact hframea q hq hqp hqn

end LT

namespace LT

/-- Inverse of `take_extend`: a path whose `take` matches the extended
prefix passes the branch prefix and selects the expected child. -/
theorem take_extend_inv (pre key q : Bytes) (c : Nat)
    (h : q.take (pre.length + key.length + 1) = pre ++ key ++ [c])
    (hlen : pre.length + key.length < q.length) :
    q.take pre.length = pre ∧ prefixLenFn key (q.drop pre.length) = key.length ∧
      q.getD (pre.length + key.length) 0 = c := by
  rw [take_succ_getD q _ hlen, List.take_add] at h
  have hlen1 : (q.take pre.length).length = pre.length := by
    rw [List.length_take]
    omega
  have hlen2 : ((q.drop pre.length).take key.length).length = key.length := by
    rw [List.length_take, List.length_drop]
    omega
  obtain ⟨hAB, hg⟩ := List.append_inj h (by rw [List.length_append, hlen1, hlen2]; simp)
  obtain ⟨hA, hB⟩ := List.append_inj hAB (by rw [hlen1])
  refine ⟨hA, ?_, by simpa using hg⟩
  rw [prefixLenFn_eq_length_iff]
  exact hB.symm

/-- What `remove` guarantees on a well-formed subtree. -/
def RemoveOK (n : VNode) (pre path : Bytes) : RemoveResult → Prop
  | .failed _ => False
  | .notRemoved => valueAt n path pre.length = none
  | .removed n' dk' =>
      WF pre n' ∧ valueAt n' path pre.length = none ∧
      (∀ q, IsFullPath q → q.take pre.length = pre → q ≠ path →
        valueAt n' q pre.length = valueAt n q pre.length) ∧
      (∀ p ∈ dk', IsFullPath p.1 ∧ p.1.take pre.length = pre ∧
        valueAt n' p.1 pre.length = none) ∧
      (n' = .nil ∨ dk' = []) ∧
      valueAt n path pre.length ≠ none

theorem removeRec_spec (ctx : TrieCtx) (tv : Nat) :
    (fuel : Nat) → (n : VNode) → (pre path : Bytes) →
    WF pre n → IsFullPath path → path.take pre.length = pre → pre.length ≤ 64 →
    nodeSize n ≤ fuel →
    RemoveOK n pre path (removeRec ctx tv fuel n path pre.length)
  | 0, n, pre, path, _, _, _, _, hfuel => by
    have := one_le_nodeSize n
    omega
  | fuel + 1, n, pre, path, hwf, hfp, hpre, hd64, hfuel => by
    cases hcontb : n.prefixContainedIn path pre.length with
    | false =>
      have hred : removeRec ctx tv (fuel + 1) n path pre.length = .notRemoved := by
        simp only [removeRec, hcontb, WF_isLive hwf, Bool.not_false, Bool.true_and, if_true]
      rw [hred]
      show valueAt n path pre.length = none
      exact valueAt_none_of_not_contained n path pre.length hcontb
    | true =>
      cases hwf with
      | nil => simp [VNode.prefixContainedIn] at hcontb
      | leaf _ key v ver h65 hnib hlast hv =>
        have heq : path.drop pre.length = key :=
          (contained_iff_drop_eq (by rw [List.length_drop, hfp.len]; omega)).mp
            (by simpa [VNode.prefixContainedIn] using hcontb)
        simp only [removeRec, hcontb, Bool.not_true, Bool.and_false, if_false,
          Bool.false_eq_true, VNode.isLive, Bool.true_and]
        rw [if_neg hv]
        refine ⟨WF.nil pre, rfl, ?_, ?_, Or.inl rfl, ?_⟩
        · intro q hq hqp hqn
          have hne : ¬ (q.drop pre.length = key) := by
            intro he
            exact hqn (eq_of_take_drop pre.length (hqp.trans hpre.symm)
              (he.trans heq.symm))
          simp only [valueAt]
          rw [if_neg hne]
        · intro p hp
          have hep : p = (path, tv) := by simpa [KeySet.single] using hp
          rw [hep]
          exact ⟨hfp, hpre, rfl⟩
        · simp only [valueAt]
          rw [if_pos heq]
          simp
      | full _ key ch ver h16 hlen63 hknib hcount hch =>
        have hcp : prefixLenFn key (path.drop pre.length) = key.length := by
          simpa [VNode.prefixContainedIn] using hcontb
        have hcr16 : path.getD (pre.length + key.length) 0 < 16 := hfp.nib (by omega)
        have hWFc := hch _ hcr16
        have hlen' : (pre ++ key ++ [path.getD (pre.length + key.length) 0]).length
            = pre.length + key.length + 1 := by
          simp
          omega
        have hpre' : path.take (pre.length + key.length + 1)
            = pre ++ key ++ [path.getD (pre.length + key.length) 0] :=
          take_extend pre key path _ hpre hcp rfl (by rw [hfp.len]; omega)
        have hfuel' : nodeSize (ch.getD (path.getD (pre.length + key.length) 0) .nil) ≤ fuel := by
          have h1 := nodeSize_getD_le ch (path.getD (pre.length + key.length) 0)
          have h2 : nodeSize (VNode.full key ch ver) = 1 + nodeSizeList ch := rfl
          omega
        have IH := removeRec_spec ctx tv fuel
          (ch.getD (path.getD (pre.length + key.length) 0) .nil)
          (pre ++ key ++ [path.getD (pre.length + key.length) 0]) path hWFc hfp
          (by rw [hlen']; exact hpre') (by rw [hlen']; omega) hfuel'
        rw [hlen'] at IH
        simp only [removeRec, hcontb, Bool.not_true, Bool.and_false, if_false,
          Bool.false_eq_true, VNode.isLive, Bool.true_and]
        cases hres : removeRec ctx tv fuel
          (ch.getD (path.getD (pre.length + key.length) 0) .nil) path
          (pre.length + key.length + 1) with
        | failed e =>
          rw [hres] at IH
          exact IH
        | notRemoved =>
          rw [hres] at IH
          have IH2 : valueAt (ch.getD (path.getD (pre.length + key.length) 0) .nil) path
              (pre ++ key ++ [path.getD (pre.length + key.length) 0]).length = none := IH
          rw [hlen'] at IH2
          show valueAt (VNode.full key ch ver) path pre.length = none
          simp only [valueAt]
          rw [if_pos hcp, valueAtChild_eq]
          exact IH2
        | removed afterChild dkC =>
          rw [hres] at IH
          obtain ⟨hWFa, hvnone, hframea, hdkc, hdisj, holdne⟩ := IH
          rw [hlen'] at hvnone hframea holdne
          have hcnt : 1 ≤ livingCount
              (childrenReplace ch (path.getD (pre.length + key.length) 0) afterChild) := by
            have hset := livingCount_set_eq ch (path.getD (pre.length + key.length) 0)
              afterChild (by omega)
            have hle1 : (if isNilN (ch.getD (path.getD (pre.length + key.length) 0) .nil)
                then (0 : Nat) else 1) ≤ 1 := by
              split <;> omega
            rw [childrenReplace]
            omega
          have hWFi : ∀ i, i < 16 →
              WF (pre ++ key ++ [i])
                ((childrenReplace ch (path.getD (pre.length + key.length) 0) afterChild).getD i .nil) := by
            intro i hi
            by_cases he : i = path.getD (pre.length + key.length) 0
            · rw [he, childrenReplace, getD_set_self _ _ _ (by omega)]
              exact hWFa
            · rw [childrenReplace, getD_set_ne _ _ (fun h => he h.symm)]
              exact hch i hi
          obtain ⟨n'', hok, hWFn, hniln, hvn⟩ := replaceChild_spec ctx tv key ch afterChild
            (path.getD (pre.length + key.length) 0) (path.take pre.length) pre h16 hlen63
            hknib hWFi hcnt
          simp only [hok]
          have hvnew : valueAt n'' path pre.length = none := by
            rw [hvn path hfp]
            simp only [valueAt]
            rw [if_pos hcp, valueAtChild_eq, childrenReplace,
              getD_set_self _ _ _ (by omega)]
            exact hvnone
          have hframenew : ∀ q, IsFullPath q → q.take pre.length = pre → q ≠ path →
              valueAt n'' q pre.length = valueAt (VNode.full key ch ver) q pre.length := by
            intro q hq hqp hqn
            rw [hvn q hq]
            simp only [valueAt]
            by_cases hcq : prefixLenFn key (q.drop pre.length) = key.length
            · rw [if_pos hcq, if_pos hcq, valueAtChild_eq, valueAtChild_eq]
              by_cases hrq : q.getD (pre.length + key.length) 0
                  = path.getD (pre.length + key.length) 0
              · rw [hrq, childrenReplace, getD_set_self _ _ _ (by omega)]
                have hqpre' : q.take (pre.length + key.length + 1)
                    = pre ++ key ++ [path.getD (pre.length + key.length) 0] :=
                  take_extend pre key q _ hqp hcq hrq (by rw [hq.len]; omega)
                exact hframea q hq hqpre' hqn
              · rw [childrenReplace, getD_set_ne _ _ (fun h => hrq h.symm)]
            · rw [if_neg hcq, if_neg hcq]
          have holdnew : valueAt (VNode.full key ch ver) path pre.length ≠ none := by
            simp only [valueAt]
            rw [if_pos hcp, valueAtChild_eq]
            exact holdne
          by_cases hdk0 : dkC.length = 0
          · rw [if_pos hdk0]
            exact ⟨hWFn, hvnew, hframenew, by simp, Or.inr rfl, holdnew⟩
          · rw [if_neg hdk0]
            refine ⟨?_, hvnew, hframenew, by simp, Or.inr rfl, holdnew⟩
            refine WF.wdk pre _ _ hWFn ?_
            intro p hp
            obtain ⟨hfp', htk', hva'⟩ := hdkc p hp
            rw [hlen'] at htk' hva'
            obtain ⟨ht1, ht2, ht3⟩ := take_extend_inv pre key p.1 _ htk'
              (by rw [hfp'.len]; omega)
            refine ⟨hfp', ht1, ?_⟩
            rw [hvn p.1 hfp']
            simp only [valueAt]
            rw [if_pos ht2, valueAtChild_eq, ht3, childrenReplace,
              getD_set_self _ _ _ (by omega)]
            exact hva'
      | wdk _ inner dk hinner hdk =>
        have hfuel' : nodeSize inner ≤ fuel := by
          have h2 : nodeSize (VNode.withDeletedKeys inner dk) = 1 + nodeSize inner := rfl
          omega
        simp only [removeRec, hcontb, Bool.not_true, Bool.and_false, if_false,
          Bool.false_eq_true, VNode.isLive, Bool.true_and]
        by_cases hck : dk.containsKey path
        · rw [if_pos hck]
          obtain ⟨vv, hvv⟩ := (KeySet.containsKey_iff dk path).mp hck
          show valueAt (VNode.withDeletedKeys inner dk) path pre.length = none
          simp only [valueAt]
          exact (hdk (path, vv) hvv).2.2
        · rw [if_neg hck]
          have IH := removeRec_spec ctx tv fuel inner pre path hinner hfp hpre hd64 hfuel'
          cases hres : removeRec ctx tv fuel inner path pre.length with
          | failed e =>
            rw [hres] at IH
            exact IH
          | notRemoved =>
            rw [hres] at IH
            show valueAt (VNode.withDeletedKeys inner dk) path pre.length = none
            simp only [valueAt]
            exact IH
          | removed after newDK =>
            rw [hres] at IH
            obtain ⟨hWFa, hvnone, hframea, hdkn, hdisj, holdne⟩ := IH
            cases after
            · refine ⟨WF.nil pre, rfl, ?_, ?_, Or.inl rfl, ?_⟩
              · intro q hq hqp hqn
                simp only [valueAt]
                rw [← hframea q hq hqp hqn]
                rfl
              · intro p hp
                rcases KeySet.mem_merge.mp hp with ⟨hp1, _⟩ | hp2
                · obtain ⟨hfp', htk', _⟩ := hdk p hp1
                  exact ⟨hfp', htk', rfl⟩
                · obtain ⟨hfp', htk', _⟩ := hdkn p hp2
                  exact ⟨hfp', htk', rfl⟩
              · show valueAt (VNode.withDeletedKeys inner dk) path pre.length ≠ none
                simp only [valueAt]
                exact holdne
            all_goals {
              have hnd : newDK = [] := by
                rcases hdisj with h | h
                · exact absurd h (by simp)
                · exact h
              rw [hnd]
              simp only [KeySet.merge_nil]
              refine ⟨?_, ?_, ?_, by simp, Or.inr rfl, ?_⟩
              · refine WF.wdk pre _ _ hWFa ?_
                intro p hp
                obtain ⟨hfp', htk', hva'⟩ := hdk p hp
                have hne := containsKey_false_ne (by simpa using hck) p hp
                refine ⟨hfp', htk', ?_⟩
                rw [hframea p.1 hfp' htk' hne]
                exact hva'
              · simp only [valueAt]
                try exact hvnone
              · intro q hq hqp hqn
                simp only [valueAt]
                exact hframea q hq hqp hqn
              · show valueAt (VNode.withDeletedKeys inner dk) path pre.length ≠ none
                simp only [valueAt]
                exact holdne
            }

end LT

namespace LT

/-- `update` reports `unchanged` exactly when the value is already present. -/
theorem updateRec_unchanged_of_valueAt (ctx : TrieCtx) (tv : Nat) :
    (fuel : Nat) → (n : VNode) → (pre path val : Bytes) →
    WF pre n → IsFullPath path →
    valueAt n path pre.length = some val → nodeSize n ≤ fuel →
    updateRec ctx tv fuel n path pre.length val = .unchanged
  | 0, n, pre, path, val, _, _, _, hfuel => by
    have := one_le_nodeSize n
    omega
  | fuel + 1, n, pre, path, val, hwf, hfp, hva, hfuel => by
    have hcont : n.prefixContainedIn path pre.length = true := by
      cases h : n.prefixContainedIn path pre.length
      · rw [valueAt_none_of_not_contained n path pre.length h] at hva
        exact absurd hva (by simp)
      · rfl
    cases hwf with
    | nil => simp [valueAt] at hva
    | leaf _ key v ver h65 hnib hlast hv =>
      have heq : path.drop pre.length = key :=
        (contained_iff_drop_eq (by rw [List.length_drop, hfp.len]; omega)).mp
          (by simpa [VNode.prefixContainedIn] using hcont)
      have hvv : v = val := by
        simp only [valueAt] at hva
        rw [if_pos heq] at hva
        simpa using hva
      simp only [updateRec, hcont, Bool.not_true, Bool.and_false, if_false,
        Bool.false_eq_true, VNode.isLive, Bool.true_and]
      rw [if_pos hvv]
    | full _ key ch ver h16 hlen63 hknib hcount hch =>
      have hcp : prefixLenFn key (path.drop pre.length) = key.length := by
        simpa [VNode.prefixContainedIn] using hcont
      have hcr16 : path.getD (pre.length + key.length) 0 < 16 := hfp.nib (by omega)
      have hWFc := hch _ hcr16
      have hlen' : (pre ++ key ++ [path.getD (pre.length + key.length) 0]).length
          = pre.length + key.length + 1 := by
        simp
        omega
      have hva' : valueAt (ch.getD (path.getD (pre.length + key.length) 0) .nil) path
          (pre.length + key.length + 1) = some val := by
        simp only [valueAt] at hva
        rw [if_pos hcp, valueAtChild_eq] at hva
        exact hva
      have hfuel' : nodeSize (ch.getD (path.getD (pre.length + key.length) 0) .nil) ≤ fuel := by
        have h1 := nodeSize_getD_le ch (path.getD (pre.length + key.length) 0)
        have h2 : nodeSize (VNode.full key ch ver) = 1 + nodeSizeList ch := rfl
        omega
      have IH := updateRec_unchanged_of_valueAt ctx tv fuel
        (ch.getD (path.getD (pre.length + key.length) 0) .nil)
        (pre ++ key ++ [path.getD (pre.length + key.length) 0]) path val hWFc hfp
        (by rw [hlen']; exact hva') hfuel'
      rw [hlen'] at IH
      simp only [updateRec, hcont, Bool.not_true, Bool.and_false, if_false,
        Bool.false_eq_true, VNode.isLive, Bool.true_and]
      rw [IH]
    | wdk _ inner dk hinner hdk =>
      have hva' : valueAt inner path pre.length = some val := by
        simpa [valueAt] using hva
      have hfuel' : nodeSize inner ≤ fuel := by
        have h2 : nodeSize (VNode.withDeletedKeys inner dk) = 1 + nodeSize inner := rfl
        omega
      have IH := updateRec_unchanged_of_valueAt ctx tv fuel inner pre path val hinner hfp
        hva' hfuel'
      simp only [updateRec, hcont, Bool.not_true, Bool.and_false, if_false,
        Bool.false_eq_true, VNode.isLive, Bool.true_and]
      rw [IH]

/-! ### Hex expansion of 32-byte keys -/

theorem keybytesHex_cons₂ (b : Nat) (bs : Bytes) :
    keybytesHex (b :: bs) = b / 16 :: b % 16 :: keybytesHex bs :=
  keybytesHex_cons b bs

theorem keybytesHex_spec : (k : Bytes) → (∀ x ∈ k, x < 256) →
    (keybytesHex k).length = 2 * k.length + 1 ∧
    (∀ i, i < 2 * k.length → (keybytesHex k).getD i 0 < 16) ∧
    (keybytesHex k).getD (2 * k.length) 0 = 16
  | [], _ => ⟨rfl, fun i hi => absurd hi (by simp), rfl⟩
  | b :: bs, hb => by
    have hb0 : b < 256 := hb b (by simp)
    obtain ⟨IH1, IH2, IH3⟩ := keybytesHex_spec bs (fun x hx => hb x (by simp [hx]))
    rw [keybytesHex_cons₂]
    refine ⟨?_, ?_, ?_⟩
    · simp only [List.length_cons, IH1]
      omega
    · intro i hi
      rcases i with _ | _ | i
      · show b / 16 < 16
        omega
      · show b % 16 < 16
        omega
      · rw [List.getD_cons_succ, List.getD_cons_succ]
        refine IH2 i ?_
        simp only [List.length_cons] at hi
        omega
    · have h2l : 2 * (b :: bs).length = 2 * bs.length + 2 := by
        simp
        omega
      rw [h2l, List.getD_cons_succ, List.getD_cons_succ]
      exact IH3

theorem keybytesHex_isFullPath (k : Bytes) (hlen : k.length = 32)
    (hb : ∀ x ∈ k, x < 256) : IsFullPath (keybytesHex k) := by
  obtain ⟨h1, h2, h3⟩ := keybytesHex_spec k hb
  rw [hlen] at h1 h2 h3
  exact ⟨h1, fun i hi => h2 i (by omega), h3⟩

/-! ### Public API consequences of the recursion specifications -/

theorem trie_update_ok (ctx : TrieCtx) (t : Trie) (k v : Bytes)
    (hWF : WF [] t.root) (hk : k.length = 32) (hb : ∀ x ∈ k, x < 256)
    (hv : v ≠ deletedValue) :
    (Trie.Update ctx t (some k) (some v)).2 = none ∧
    WF [] ((Trie.Update ctx t (some k) (some v)).1).root ∧
    valueAt ((Trie.Update ctx t (some k) (some v)).1).root (keybytesHex k) 0 = some v ∧
    (∀ q, IsFullPath q → q ≠ keybytesHex k →
      valueAt ((Trie.Update ctx t (some k) (some v)).1).root q 0 = valueAt t.root q 0) := by
  have hfp := keybytesHex_isFullPath k hk hb
  have IH : UpdateOK t.root [] (keybytesHex k) v
      (updateRec ctx t.version (nodeSize t.root) t.root (keybytesHex k) 0 v) :=
    updateRec_spec ctx t.version (nodeSize t.root) t.root [] (keybytesHex k) v hWF hfp
      rfl (by simp) hv (le_refl _)
  simp only [Trie.Update, checkKey, checkValue, Option.getD_some]
  rw [if_neg (by omega : ¬ k.length ≠ 32), if_neg hv]
  cases hres : updateRec ctx t.version (nodeSize t.root) t.root (keybytesHex k) 0 v with
  | failed e =>
    rw [hres] at IH
    exact IH.elim
  | unchanged =>
    rw [hres] at IH
    refine ⟨rfl, hWF, IH, fun q _ _ => rfl⟩
  | updated after =>
    rw [hres] at IH
    obtain ⟨h1, _, h3, h4⟩ := IH
    exact ⟨rfl, h1, h3, fun q hq hqn => h4 q hq rfl hqn⟩

theorem trie_get_eq (ctx : TrieCtx) (t : Trie) (k : Bytes)
    (hWF : WF [] t.root) (hk : k.length = 32) (hb : ∀ x ∈ k, x < 256) :
    Trie.Get ctx t (some k) = (valueAt t.root (keybytesHex k) 0, none) := by
  have hfp := keybytesHex_isFullPath k hk hb
  have hg : getRec ctx t.version (nodeSize t.root) t.root (keybytesHex k) 0
      = match valueAt t.root (keybytesHex k) 0 with
        | some v => .found v
        | none => .notFound :=
    getRec_eq_valueAt ctx t.version (nodeSize t.root) t.root [] (keybytesHex k) hWF hfp
      (le_refl _)
  simp only [Trie.Get, checkKey, Option.getD_some]
  rw [if_neg (by omega : ¬ k.length ≠ 32), hg]
  cases valueAt t.root (keybytesHex k) 0 <;> rfl

theorem trie_remove_ok (ctx : TrieCtx) (t : Trie) (k : Bytes)
    (hWF : WF [] t.root) (hk : k.length = 32) (hb : ∀ x ∈ k, x < 256) :
    (Trie.Remove ctx t (some k)).2 = none ∧
    WF [] ((Trie.Remove ctx t (some k)).1).root ∧
    valueAt ((Trie.Remove ctx t (some k)).1).root (keybytesHex k) 0 = none ∧
    (∀ q, IsFullPath q → q ≠ keybytesHex k →
      valueAt ((Trie.Remove ctx t (some k)).1).root q 0 = valueAt t.root q 0) ∧
    (valueAt t.root (keybytesHex k) 0 = none →
      Trie.Remove ctx t (some k) = (t, none)) := by
  have hfp := keybytesHex_isFullPath k hk hb
  have IH : RemoveOK t.root [] (keybytesHex k)
      (removeRec ctx t.version (nodeSize t.root) t.root (keybytesHex k) 0) :=
    removeRec_spec ctx t.version (nodeSize t.root) t.root [] (keybytesHex k) hWF hfp
      rfl (by simp) (le_refl _)
  simp only [Trie.Remove, checkKey, Option.getD_some]
  rw [if_neg (by omega : ¬ k.length ≠ 32)]
  cases hres : removeRec ctx t.version (nodeSize t.root) t.root (keybytesHex k) 0 with
  | failed e =>
    rw [hres] at IH
    exact IH.elim
  | notRemoved =>
    rw [hres] at IH
    exact ⟨rfl, hWF, IH, fun q _ _ => rfl, fun _ => rfl⟩
  | removed after dk =>
    rw [hres] at IH
    obtain ⟨h1, h2, h3, h4, h5, h6⟩ := IH
    have hnoop : valueAt t.root (keybytesHex k) 0 = none →
        (match checkKey (some k) with
          | some e => (t, some e)
          | none => (t, none)) = (t, none) := fun hva => absurd hva h6
    refine ⟨rfl, ?_, ?_, ?_, fun hva => absurd hva h6⟩
    · -- well-formedness of the possibly wrapped new root
      rcases h5 with hnil | hempty
      · subst hnil
        cases dk with
        | nil => exact h1
        | cons p ps =>
          refine WF.wdk [] .nil (p :: ps) (WF.nil []) ?_
          intro q hq
          obtain ⟨ha, hb', hc⟩ := h4 q hq
          exact ⟨ha, hb', rfl⟩
      · subst hempty
        cases after <;> exact h1
    · rcases h5 with hnil | hempty
      · subst hnil
        cases dk with
        | nil => exact h2
        | cons p ps => exact h2
      · subst hempty
        cases after <;> exact h2
    · intro q hq hqn
      rcases h5 with hnil | hempty
      · subst hnil
        cases dk with
        | nil => exact h3 q hq rfl hqn
        | cons p ps => exact h3 q hq rfl hqn
      · subst hempty
        cases after <;> exact h3 q hq rfl hqn

end LT

namespace LT

/-! ## Claim-level theorems -/

/-- A storage context with an empty backing store: every load misses and
the finalize-hash oracle is empty.  Fresh in-memory tries never consult
it. -/
def ctx0 : TrieCtx := ⟨fun _ _ => none, fun _ _ => none, fun _ _ => none, fun _ _ => none⟩

/-- C1: for every 32-byte key `k` and non-reserved value `v` on a
well-formed trie, `Update(k, v)` followed by `Get(k)` returns `v` without
error; `Remove(k)` followed by `Get(k)` returns nothing without error; and
`Remove(k)` for a key holding no value returns without error and leaves
the trie unchanged. -/
theorem C1_round_trip (ctx : TrieCtx) (t : Trie) (k v : Bytes)
    (hWF : WF [] t.root) (hk : k.length = 32) (hb : ∀ x ∈ k, x < 256)
    (hv : v ≠ deletedValue) :
    (Trie.Update ctx t (some k) (some v)).2 = none ∧
    Trie.Get ctx (Trie.Update ctx t (some k) (some v)).1 (some k) = (some v, none) ∧
    (Trie.Remove ctx t (some k)).2 = none ∧
    Trie.Get ctx (Trie.Remove ctx t (some k)).1 (some k) = (none, none) ∧
    (valueAt t.root (keybytesHex k) 0 = none →
      Trie.Remove ctx t (some k) = (t, none)) := by
  obtain ⟨hu1, hu2, hu3, _⟩ := trie_update_ok ctx t k v hWF hk hb hv
  obtain ⟨hr1, hr2, hr3, _, hr5⟩ := trie_remove_ok ctx t k hWF hk hb
  refine ⟨hu1, ?_, hr1, ?_, hr5⟩
  · rw [trie_get_eq ctx _ k hu2 hk hb, hu3]
  · rw [trie_get_eq ctx _ k hr2 hk hb, hr3]

theorem C1_round_trip_witness :
    (Trie.Update ctx0 (Trie.newEmpty 0) (some (List.replicate 32 0)) (some [1])).2 = none ∧
    Trie.Get ctx0 (Trie.Update ctx0 (Trie.newEmpty 0) (some (List.replicate 32 0)) (some [1])).1
      (some (List.replicate 32 0)) = (some [1], none) ∧
    (Trie.Remove ctx0 (Trie.newEmpty 0) (some (List.replicate 32 0))).2 = none ∧
    Trie.Get ctx0 (Trie.Remove ctx0 (Trie.newEmpty 0) (some (List.replicate 32 0))).1
      (some (List.replicate 32 0)) = (none, none) ∧
    (valueAt (Trie.newEmpty 0).root (keybytesHex (List.replicate 32 0)) 0 = none →
      Trie.Remove ctx0 (Trie.newEmpty 0) (some (List.replicate 32 0))
        = (Trie.newEmpty 0, none)) :=
  C1_round_trip ctx0 (Trie.newEmpty 0) (List.replicate 32 0) [1] (WF.nil [])
    (by decide) (by decide) (by decide)

/-- C3 (amended): storage keys of the same path are ordered by version;
and for a terminator-free path `P` a strict prefix of `P'` whose first
extension nibble is nonzero, every key of `P` sorts before every key of
`P'`.  (The unrestricted prefix clause is refuted by
`C3_counterexample`: the odd-length flag byte breaks the order when the
extension starts with a `0` nibble.) -/
theorem C3_amended :
    (∀ P v1 v2, v1 < v2 → v2 < 2 ^ 32 →
      bytesLt (NewKey P v1) (NewKey P v2) = true) ∧
    (∀ P P' v v', PrefixPathOK P → PrefixPathOK P' → P <+: P' → P ≠ P' →
      P'.getD P.length 0 ≠ 0 → bytesLt (NewKey P v) (NewKey P' v') = true) :=
  ⟨fun P v1 v2 h h2 => newKey_version_lt P v1 v2 h h2,
   fun P P' v v' hP hP' hpre hne ha => newKey_prefix_lt P P' hP hP' hpre hne ha v v'⟩

/-- C3 counterexample: `[0]` is a strict prefix of `[0, 0]`, yet
`NewKey([0], 0)` does not sort before `NewKey([0, 0], 0)`: the odd-length
flag byte of the shorter key (1) exceeds the padded even encoding of the
longer one. -/
theorem C3_counterexample : bytesLt (NewKey [0] 0) (NewKey [0, 0] 0) = false := by
  decide

theorem C3_amended_witness :
    bytesLt (NewKey [1] 0) (NewKey [1] 1) = true ∧
    bytesLt (NewKey [1] 0) (NewKey [1, 2] 5) = true :=
  ⟨C3_amended.1 [1] 0 1 (by decide) (by decide),
   C3_amended.2 [1] [1, 2] 0 5 ⟨by decide, by decide⟩ ⟨by decide, by decide⟩
     ⟨[2], rfl⟩ (by decide) (by decide)⟩

/-! ### C4: canonical shape under arbitrary operation sequences -/

/-- A public trie operation. -/
inductive Op where
  | update (key val : Bytes)
  | remove (key : Bytes)

/-- Keys are byte strings. -/
def OpOK : Op → Prop
  | .update k _ => ∀ x ∈ k, x < 256
  | .remove k => ∀ x ∈ k, x < 256

def applyOp (ctx : TrieCtx) (t : Trie) : Op → Trie
  | .update k v => (Trie.Update ctx t (some k) (some v)).1
  | .remove k => (Trie.Remove ctx t (some k)).1

def applyOps (ctx : TrieCtx) (t : Trie) (ops : List Op) : Trie :=
  ops.foldl (applyOp ctx) t

mutual
/-- Every reachable branch node has at least two living children. -/
def branchesOK : VNode → Bool
  | .full _ ch _ => decide (2 ≤ livingCount ch) && branchesOKList ch
  | .withDeletedKeys inner _ => branchesOK inner
  | _ => true
def branchesOKList : List VNode → Bool
  | [] => true
  | c :: cs => branchesOK c && branchesOKList cs
end

theorem branchesOKList_of_getD : (ch : List VNode) →
    (∀ i, i < ch.length → branchesOK (ch.getD i .nil) = true) →
    branchesOKList ch = true
  | [], _ => rfl
  | c :: cs, h => by
    simp only [branchesOKList, Bool.and_eq_true]
    refine ⟨h 0 (by simp), branchesOKList_of_getD cs (fun i hi => ?_)⟩
    have := h (i + 1) (by simpa using hi)
    rw [List.getD_cons_succ] at this
    exact this

theorem WF_branchesOK {pre : Bytes} {n : VNode} (h : WF pre n) :
    branchesOK n = true := by
  induction h with
  | nil => rfl
  | leaf => rfl
  | full pre key ch ver h16 hlen hnib hcount hch IH =>
    simp only [branchesOK, Bool.and_eq_true, decide_eq_true_eq]
    exact ⟨hcount, branchesOKList_of_getD ch (fun i hi => IH i (by omega))⟩
  | wdk pre inner dk hinner hdk IH => exact IH

theorem applyOp_preserves_WF (ctx : TrieCtx) (t : Trie) (op : Op)
    (hWF : WF [] t.root) (hop : OpOK op) : WF [] ((applyOp ctx t op).root) := by
  cases op with
  | update k v =>
    by_cases hk : k.length = 32
    · by_cases hv : v = deletedValue
      · simp only [applyOp, Trie.Update, checkKey, checkValue, Option.getD_some]
        rw [if_neg (by omega : ¬ k.length ≠ 32), if_pos hv]
        exact hWF
      · exact (trie_update_ok ctx t k v hWF hk hop hv).2.1
    · simp only [applyOp, Trie.Update, checkKey]
      rw [if_pos hk]
      exact hWF
  | remove k =>
    by_cases hk : k.length = 32
    · exact (trie_remove_ok ctx t k hWF hk hop).2.1
    · simp only [applyOp, Trie.Remove, checkKey]
      rw [if_pos hk]
      exact hWF

theorem applyOps_preserves_WF (ctx : TrieCtx) : (ops : List Op) → (t : Trie) →
    WF [] t.root → (∀ op ∈ ops, OpOK op) → WF [] ((applyOps ctx t ops).root)
  | [], _, h, _ => h
  | op :: ops, t, h, hops =>
    applyOps_preserves_WF ctx ops (applyOp ctx t op)
      (applyOp_preserves_WF ctx t op h (hops op (by simp)))
      (fun o ho => hops o (by simp [ho]))

/-- C4: after any sequence of public Update/Remove operations from an empty
trie, every reachable branch node has at least two living children; and a
mutation that leaves a branch with exactly one living in-memory child
collapses the branch into that child, which absorbs the branch prefix and
the discriminating nibble (`prependToKey`). -/
theorem C4_canonical_shape :
    (∀ (ctx : TrieCtx) (v : Nat) (ops : List Op), (∀ op ∈ ops, OpOK op) →
      branchesOK (applyOps ctx (Trie.newEmpty v) ops).root = true) ∧
    (∀ (ctx : TrieCtx) (tv : Nat) (fkey : Bytes) (fch : List VNode)
        (newChild : VNode) (r : Nat) (ppp : Bytes) (j : Nat),
      j < (childrenReplace fch r newChild).length →
      isNilN ((childrenReplace fch r newChild).getD j .nil) = false →
      ((childrenReplace fch r newChild).getD j .nil).isLive = true →
      livingCount (childrenReplace fch r newChild) = 1 →
      replaceChild ctx tv fkey fch newChild r ppp
        = .ok (prependToKey ((childrenReplace fch r newChild).getD j .nil) fkey j tv)) :=
  ⟨fun ctx v ops hops =>
    WF_branchesOK (applyOps_preserves_WF ctx ops (Trie.newEmpty v) (WF.nil []) hops),
   fun ctx tv fkey fch newChild r ppp j h1 h2 h3 h4 =>
    replaceChild_collapse ctx tv fkey fch newChild r ppp j h1 h2 h3 h4⟩

theorem C4_canonical_shape_witness :
    branchesOK (applyOps ctx0 (Trie.newEmpty 0)
      [Op.update (List.replicate 32 0) [1],
       Op.remove (List.replicate 32 0)]).root = true ∧
    replaceChild ctx0 1 []
      ((nilChildren.set 0 (VNode.leaf [16] [1] 1)).set 1 (VNode.leaf [16] [2] 1))
      VNode.nil 0 []
      = .ok (prependToKey
          ((childrenReplace
            ((nilChildren.set 0 (VNode.leaf [16] [1] 1)).set 1 (VNode.leaf [16] [2] 1))
            0 VNode.nil).getD 1 .nil) [] 1 1) :=
  ⟨C4_canonical_shape.1 ctx0 0 _ (by
      intro op hop
      rcases List.mem_cons.mp hop with rfl | hop
      · show ∀ x ∈ List.replicate 32 0, x < 256
        decide
      rcases List.mem_cons.mp hop with rfl | hop
      · show ∀ x ∈ List.replicate 32 0, x < 256
        decide
      simp at hop),
   C4_canonical_shape.2 ctx0 1 []
     ((nilChildren.set 0 (VNode.leaf [16] [1] 1)).set 1 (VNode.leaf [16] [2] 1))
     VNode.nil 0 [] 1 (by decide) (by decide) (by decide) (by decide)⟩

/-- C5: Get, Update and Remove reject a nil key or a key that is not 32
bytes long, and Update rejects a nil value and the reserved `0x80`; in
every case the trie is returned unchanged. -/
theorem C5_public_boundary_errors (ctx : TrieCtx) (t : Trie) :
    (∀ val, Trie.Update ctx t none val = (t, some "key is nil")) ∧
    Trie.Remove ctx t none = (t, some "key is nil") ∧
    Trie.Get ctx t none = (none, some "key is nil") ∧
    (∀ k val, k.length ≠ 32 →
      Trie.Update ctx t (some k) val = (t, some "key is not 32 bytes long")) ∧
    (∀ k, k.length ≠ 32 →
      Trie.Remove ctx t (some k) = (t, some "key is not 32 bytes long")) ∧
    (∀ k, k.length ≠ 32 →
      Trie.Get ctx t (some k) = (none, some "key is not 32 bytes long")) ∧
    (∀ k, k.length = 32 → Trie.Update ctx t (some k) none = (t, some "value is nil")) ∧
    (∀ k, k.length = 32 → Trie.Update ctx t (some k) (some deletedValue)
      = (t, some "value corresponds to empty RLP string, whose usage is reserved")) := by
  refine ⟨fun val => rfl, rfl, rfl, ?_, ?_, ?_, ?_, ?_⟩
  · intro k val hk
    simp only [Trie.Update, checkKey]
    rw [if_pos hk]
  · intro k hk
    simp only [Trie.Remove, checkKey]
    rw [if_pos hk]
  · intro k hk
    simp only [Trie.Get, checkKey]
    rw [if_pos hk]
  · intro k hk
    simp only [Trie.Update, checkKey, checkValue]
    rw [if_neg (by omega : ¬ k.length ≠ 32)]
  · intro k hk
    simp only [Trie.Update, checkKey, checkValue]
    rw [if_neg (by omega : ¬ k.length ≠ 32), if_pos trivial]

theorem C5_public_boundary_errors_witness :
    Trie.Update ctx0 (Trie.newEmpty 0) (some [1]) (some [2])
      = (Trie.newEmpty 0, some "key is not 32 bytes long") ∧
    Trie.Update ctx0 (Trie.newEmpty 0) (some (List.replicate 32 0)) (some deletedValue)
      = (Trie.newEmpty 0,
         some "value corresponds to empty RLP string, whose usage is reserved") :=
  ⟨(C5_public_boundary_errors ctx0 (Trie.newEmpty 0)).2.2.2.1 [1] (some [2]) (by decide),
   (C5_public_boundary_errors ctx0 (Trie.newEmpty 0)).2.2.2.2.2.2.2
     (List.replicate 32 0) (by decide)⟩

/-- C6: updating the same key with the same value twice is indistinguishable
from doing it once: the engine reports `unchanged` on the second call,
which returns no error and the identical trie (the root is not replaced). -/
theorem C6_update_idempotent (ctx : TrieCtx) (t : Trie) (k v : Bytes)
    (hWF : WF [] t.root) (hk : k.length = 32) (hb : ∀ x ∈ k, x < 256)
    (hv : v ≠ deletedValue) :
    updateRec ctx ((Trie.Update ctx t (some k) (some v)).1).version
      (nodeSize ((Trie.Update ctx t (some k) (some v)).1).root)
      ((Trie.Update ctx t (some k) (some v)).1).root (keybytesHex k) 0 v
      = .unchanged ∧
    Trie.Update ctx (Trie.Update ctx t (some k) (some v)).1 (some k) (some v)
      = ((Trie.Update ctx t (some k) (some v)).1, none) := by
  obtain ⟨hu1, hu2, hu3, _⟩ := trie_update_ok ctx t k v hWF hk hb hv
  have hfp := keybytesHex_isFullPath k hk hb
  have hun : updateRec ctx ((Trie.Update ctx t (some k) (some v)).1).version
      (nodeSize ((Trie.Update ctx t (some k) (some v)).1).root)
      ((Trie.Update ctx t (some k) (some v)).1).root (keybytesHex k) 0 v = .unchanged :=
    updateRec_unchanged_of_valueAt ctx _ _ _ [] (keybytesHex k) v hu2 hfp hu3 (le_refl _)
  refine ⟨hun, ?_⟩
  generalize ht1 : (Trie.Update ctx t (some k) (some v)).1 = t1 at hun ⊢
  simp only [Trie.Update, checkKey, checkValue, Option.getD_some]
  rw [if_neg (by omega : ¬ k.length ≠ 32), if_neg hv, hun]

theorem C6_update_idempotent_witness :
    updateRec ctx0
      ((Trie.Update ctx0 (Trie.newEmpty 0) (some (List.replicate 32 0)) (some [1])).1).version
      (nodeSize ((Trie.Update ctx0 (Trie.newEmpty 0) (some (List.replicate 32 0))
        (some [1])).1).root)
      ((Trie.Update ctx0 (Trie.newEmpty 0) (some (List.replicate 32 0)) (some [1])).1).root
      (keybytesHex (List.replicate 32 0)) 0 [1] = .unchanged ∧
    Trie.Update ctx0
      (Trie.Update ctx0 (Trie.newEmpty 0) (some (List.replicate 32 0)) (some [1])).1
      (some (List.replicate 32 0)) (some [1])
      = ((Trie.Update ctx0 (Trie.newEmpty 0) (some (List.replicate 32 0)) (some [1])).1,
         none) :=
  C6_update_idempotent ctx0 (Trie.newEmpty 0) (List.replicate 32 0) [1] (WF.nil [])
    (by decide) (by decide) (by decide)

/-! ### C7: tombstone overlay behaviour of `update` -/

/-- C7 (amended): when `update` descends through a `WithDeletedKeys`
overlay it recurses into the inner node; if the updated path was present
in the tombstone set that entry is dropped; but the overlay wrapper is
always retained — even when the tombstone set becomes empty.  (The spec's
unwrap clause is refuted by `C7_counterexample`.) -/
theorem C7_amended (ctx : TrieCtx) (tv fuel : Nat) (inner : VNode) (dk : KeySet)
    (path val : Bytes) (index : Nat) (after : VNode)
    (hguard : ((VNode.withDeletedKeys inner dk).isLive
      && !((VNode.withDeletedKeys inner dk).prefixContainedIn path index)) = false)
    (hrec : updateRec ctx tv fuel inner path index val = .updated after) :
    updateRec ctx tv (fuel + 1) (.withDeletedKeys inner dk) path index val
      = .updated (.withDeletedKeys after
          (if dk.containsKey path then dk.removeKey path else dk)) := by
  simp only [updateRec, hguard, Bool.false_eq_true, if_false]
  rw [hrec]
  show (if dk.containsKey path then
      UpdateResult.updated (VNode.withDeletedKeys after (dk.removeKey path))
    else UpdateResult.updated (VNode.withDeletedKeys after dk)) = _
  by_cases hck : dk.containsKey path
  · rw [if_pos hck, if_pos hck]
  · rw [if_neg hck, if_neg hck]

theorem C7_amended_witness :
    updateRec ctx0 1 2 (.withDeletedKeys (.leaf [16] [1] 1) [([16], 1)]) [16] 0 [2]
      = .updated (.withDeletedKeys (.leaf [16] [2] 1)
          (if KeySet.containsKey [([16], 1)] [16]
            then KeySet.removeKey [([16], 1)] [16] else [([16], 1)])) :=
  C7_amended ctx0 1 1 (.leaf [16] [1] 1) [([16], 1)] [16] [2] 0 (.leaf [16] [2] 1)
    (by decide) rfl

def kA : Bytes := List.replicate 32 0
def kB : Bytes := List.replicate 31 0 ++ [1]
def kC : Bytes := List.replicate 31 0 ++ [2]

/-- Insert three sibling keys, remove one, then re-insert it: the final
root carries an overlay with an empty tombstone set. -/
def c7Trie : Trie :=
  let t0 := Trie.newEmpty 0
  let t1 := (Trie.Update ctx0 t0 (some kA) (some [1])).1
  let t2 := (Trie.Update ctx0 t1 (some kB) (some [2])).1
  let t3 := (Trie.Update ctx0 t2 (some kC) (some [3])).1
  let t4 := (Trie.Remove ctx0 t3 (some kB)).1
  (Trie.Update ctx0 t4 (some kB) (some [9])).1

def isEmptyOverlay : VNode → Bool
  | .withDeletedKeys _ [] => true
  | _ => false

/-- C7 counterexample: after removing `kB` (leaving its tombstone) and
updating `kB` again (dropping the tombstone, emptying the set), the root
is still a `WithDeletedKeys` wrapper with an empty set — the wrapper is
not removed, contradicting the claim's unwrap clause. -/
theorem C7_counterexample : isEmptyOverlay c7Trie.root = true := by rfl

/-! ### C8: the fridge truncation scenario -/

/-- The S6 fridge: three appended items `{01}`, `{02 02}`, `{03 03 03}`. -/
def fridge3 : VectorDB :=
  match (VectorDB.openFresh.Append [0x01]) with
  | .ok f1 =>
    match f1.Append [0x02, 0x02] with
    | .ok f2 =>
      match f2.Append [0x03, 0x03, 0x03] with
      | .ok f3 => f3
      | .error _ => VectorDB.openFresh
    | .error _ => VectorDB.openFresh
  | .error _ => VectorDB.openFresh

/-- C8: on the three-item fridge, `Items` is 3 and `Get 0/1` return the
surviving items and `Get 2` fails afterwards — but `Truncate 2` returns an
error (EOF while re-reading the truncated index) instead of the `nil` the
claim and the repository's own test expect. -/
theorem C8_truncate_errors :
    VectorDB.Items fridge3 = 3 ∧
    (fridge3.Truncate 2).2 ≠ none ∧
    (fridge3.Truncate 2).1.Get 0 = .ok [0x01] ∧
    (fridge3.Truncate 2).1.Get 1 = .ok [0x02, 0x02] ∧
    ((fridge3.Truncate 2).1.Get 2).toOption = none :=
  ⟨rfl, by decide, rfl, rfl, rfl⟩

/-- C9: `Hash` of a freshly created empty trie, at any initial version and
under any keccak oracle, is exactly the constant empty-trie root hash, and
the finalizer performs no storage writes. -/
theorem C9_empty_trie_hash (K : Keccak) (v : Nat) :
    Trie.Hash K (Trie.newEmpty v) = .ok (emptyRootBytes, []) := rfl

theorem C10_round_trip_witness :
    HexOK [1, 2, 16] ∧ compactHex (hexCompact [1, 2, 16]) = [1, 2, 16] :=
  have hok : HexOK [1, 2, 16] :=
    ⟨by decide, fun x hx => by
      have hx16 : x = 16 := by simpa using hx.symm
      omega⟩
  ⟨hok, compactHex_hexCompact [1, 2, 16] hok⟩

end LT
